import Mathlib

/-!
Verification development for the mind-map command parser and graph
reconciliation engine of `mindmap.py`.

The embedding models, faithfully to the source:

* the two regular expressions
    pattern1 = (add|delete)\("([^()"]+)",\s*"([^()"]+)"\)
    pattern2 = (delete)\("([^()"]+)"\)
  together with Python's `re.findall` semantics (left-to-right scan,
  non-overlapping matches).  Because the character class `[^()"]+` excludes
  the double quote that must follow it, and `\s*` is followed by a quote
  that is not whitespace, the backtracking regex engine is deterministic
  here: each quantifier can only succeed with its maximal munch.  The
  matcher below implements exactly that;
* `Message.__post_init__`, i.e. `textwrap.dedent(content).strip()`
  (whitespace characters are modelled at their ASCII extent);
* `MindMap.parse_and_include_edges`, `MindMap._delete_node`,
  `MindMap.ask_for_initial_graph` and `MindMap.ask_for_extended_graph`.
  The OpenAI call is a parameter `gen`; a raised exception is `Except.error`.
  Each flow returns the state as it stands when the call fails, paired with
  the error, which makes the commit discipline of the source visible.

Python's `set`/`frozenset` iteration order is implementation defined; the
source rebuilds `self.edges` as `[tuple(a) for a in added]`, so the order
and the orientation of the stored pairs are arbitrary there.  The model
fixes the canonical determinization (first-acceptance order, candidate
orientation); all claim statements are at the level of unordered-pair
membership, where every determinization agrees.
-/

/-- `p` is a prefix of `l`. -/
def isPfx (p l : List Char) : Prop := ∃ t, p ++ t = l

/-- `u` is a suffix of `l`. -/
def isSfx (u l : List Char) : Prop := ∃ t, t ++ u = l

/-- Characters matched by Python's `\s` (ASCII extent), also the characters
stripped by `str.strip()`. -/
def pySpace (c : Char) : Bool :=
  c == ' ' || c == '\t' || c == '\n' || c == '\r' || c == '\x0b' || c == '\x0c'

/-- Characters admitted by the label class `[^()"]`. -/
def isLabelChar (c : Char) : Bool := !(c == '(' || c == ')' || c == '"')

/-- The literal `add` of the alternation in pattern1. -/
def ADD : List Char := ['a', 'd', 'd']

/-- The literal `delete` of pattern1 and pattern2. -/
def DEL : List Char := ['d', 'e', 'l', 'e', 't', 'e']

/-- Strip an expected literal from the front of the input. -/
def stripPfx : List Char → List Char → Option (List Char)
  | [], s => some s
  | _ :: _, [] => none
  | p :: ps, c :: cs => if p = c then stripPfx ps cs else none

/-- Match `(add|delete)` at the current position (alternation tries `add`
first, as the regex does). -/
def matchOp (s : List Char) : Option (List Char × List Char) :=
  match stripPfx ADD s with
  | some r => some (ADD, r)
  | none =>
    match stripPfx DEL s with
    | some r => some (DEL, r)
    | none => none

/-- Match `[^()"]+"` at the current position: the greedy class run must end
at an excluded character, and the pattern can only succeed when that
character is the quote itself, so maximal munch is the one viable choice.
Returns the captured label and the input after the closing quote. -/
def matchLabel (s : List Char) : Option (List Char × List Char) :=
  match s.dropWhile isLabelChar with
  | '"' :: rest => if s.takeWhile isLabelChar = [] then none
                   else some (s.takeWhile isLabelChar, rest)
  | _ => none

/-- Match pattern1 `(add|delete)\("([^()"]+)",\s*"([^()"]+)"\)` anchored at
the current position; on success returns the three groups and the rest of
the input after the match. -/
def matchP1At (s : List Char) : Option ((List Char × List Char × List Char) × List Char) :=
  match matchOp s with
  | none => none
  | some (op, r1) =>
    match stripPfx ['(', '"'] r1 with
    | none => none
    | some r2 =>
      match matchLabel r2 with
      | none => none
      | some (a, r3) =>
        match stripPfx [','] r3 with
        | none => none
        | some r4 =>
          match stripPfx ['"'] (r4.dropWhile pySpace) with
          | none => none
          | some r5 =>
            match matchLabel r5 with
            | none => none
            | some (b, r6) =>
              match stripPfx [')'] r6 with
              | none => none
              | some rest => some ((op, a, b), rest)

/-- Match pattern2 `(delete)\("([^()"]+)"\)` anchored at the current
position; returns the captured label (the first group is always the
literal `delete`) and the rest of the input. -/
def matchP2At (s : List Char) : Option (List Char × List Char) :=
  match stripPfx DEL s with
  | none => none
  | some r1 =>
    match stripPfx ['(', '"'] r1 with
    | none => none
    | some r2 =>
      match matchLabel r2 with
      | none => none
      | some (a, r3) =>
        match stripPfx [')'] r3 with
        | none => none
        | some rest => some (a, rest)

/-- `re.findall` scan for pattern1: try each position left to right,
resume after the end of every match.  Fuelled so that it computes by
structural recursion; fuel `s.length` is always sufficient because a
successful match consumes at least one character. -/
def scan1 : Nat → List Char → List (List Char × List Char × List Char)
  | 0, _ => []
  | _ + 1, [] => []
  | f + 1, c :: cs =>
    match matchP1At (c :: cs) with
    | some (m, rest) => m :: scan1 f rest
    | none => scan1 f cs

/-- `re.findall` scan for pattern2 (each element is the captured label; the
other group is the constant `delete`). -/
def scan2 : Nat → List Char → List (List Char)
  | 0, _ => []
  | _ + 1, [] => []
  | f + 1, c :: cs =>
    match matchP2At (c :: cs) with
    | some (m, rest) => m :: scan2 f rest
    | none => scan2 f cs

/-- `re.findall(pattern1, output)`. -/
def findall1 (output : String) : List (List Char × List Char × List Char) :=
  scan1 output.data.length output.data

/-- `re.findall(pattern2, output)`. -/
def findall2 (output : String) : List (List Char) :=
  scan2 output.data.length output.data

/-- One regex match, as consumed by the classification loop.  `m3` is a
pattern1 tuple `(op, a, b)`; `m2` is a pattern2 tuple, whose first group is
always the literal `"delete"` (the regex group is `(delete)`), so only the
captured label is carried and the loop's `else` branch (`remove_nodes.add`)
is the one reachable branch for it. -/
inductive PyMatch where
  | m3 (op a b : String)
  | m2 (a : String)
  deriving DecidableEq, Repr

/-- `re.findall(pattern1, output) + re.findall(pattern2, output)`:
the matches list of `parse_and_include_edges`, pattern1 matches first as a
group, then pattern2 matches. -/
def pyMatchesL (t : List Char) : List PyMatch :=
  (scan1 t.length t).map (fun m => PyMatch.m3 ⟨m.1⟩ ⟨m.2.1⟩ ⟨m.2.2⟩)
    ++ (scan2 t.length t).map (fun m => PyMatch.m2 ⟨m⟩)

/-- Matches list of `parse_and_include_edges` for a `str` output. -/
def pyMatchesStr (output : String) : List PyMatch := pyMatchesL output.data

/-- The unordered-pair identity `frozenset(edge)` of an edge tuple. -/
def fz (e : String × String) : Finset String := {e.1, e.2}

/-- Result of the classification loop of `parse_and_include_edges`:
`new_edges` (in encounter order, duplicates kept), `remove_edges` (set of
frozensets; modelled as a list used only through membership) and
`remove_nodes`. -/
structure Batch where
  new_edges : List (String × String)
  remove_edges : List (Finset String)
  remove_nodes : List String

/-- One iteration of the classification loop:
`op, *args = match; add = op == "add"` and then the arity test.  A
self-referencing two-argument edit (`a == b`) is skipped before it is
classified.  (A three-group match whose op is neither `add` nor `delete`
would fall into the `remove_nodes` branch with `args[0]`; the regex only
produces `add`/`delete` there, but the branch is modelled as written.) -/
def classifyStep (acc : Batch) : PyMatch → Batch
  | PyMatch.m3 op a b =>
    if op = "add" ∨ op = "delete" then
      if a = b then acc
      else if op = "add" then { acc with new_edges := acc.new_edges ++ [(a, b)] }
      else { acc with remove_edges := acc.remove_edges ++ [fz (a, b)] }
    else { acc with remove_nodes := acc.remove_nodes ++ [a] }
  | PyMatch.m2 a => { acc with remove_nodes := acc.remove_nodes ++ [a] }

/-- The classification loop over the matches list. -/
def classify (ms : List PyMatch) : Batch :=
  ms.foldl classifyStep ⟨[], [], []⟩

/-- The dedup-and-filter walk of `parse_and_include_edges`: first
occurrence of an unordered-pair identity wins, and a candidate is dropped
when its identity was already accepted, either endpoint is in
`remove_nodes` (`nodes & remove_nodes` is nonempty), or its identity is in
`remove_edges`.  Accepted edges accumulate in first-acceptance order with
the orientation of the first candidate. -/
def walkEdges (rem : List (Finset String)) (rn : List String) :
    List (String × String) → List (String × String) → List (String × String)
  | added, [] => added
  | added, e :: es =>
    if fz e ∈ added.map fz ∨ e.1 ∈ rn ∨ e.2 ∈ rn ∨ fz e ∈ rem then
      walkEdges rem rn added es
    else
      walkEdges rem rn (added ++ [e]) es

/-- `self.nodes = list(set([n for e in self.edges for n in e]))`:
the node list derived from the edge list (set order determinized as first
occurrence). -/
def nodesOf (edges : List (String × String)) : List String :=
  ((edges.map fun e => [e.1, e.2]).flatten).dedup

/-- A conversation message `{content, role}`.  `role` is one of
`"user" | "system" | "assistant"` in the source. -/
structure Message where
  content : String
  role : String
  deriving DecidableEq, Repr

/-- Whitespace-only line in the sense of textwrap's `^[ \t]+$`. -/
def lineBlank (l : List Char) : Bool := !l.isEmpty && l.all (fun c => c == ' ' || c == '\t')

/-- A line containing a character other than space or tab (the lines whose
leading run the regex `(^[ \t]*)(?:[^ \t\n])` reports). -/
def lineHasContent (l : List Char) : Bool := l.any (fun c => !(c == ' ' || c == '\t'))

/-- Leading `[ \t]*` run of a line. -/
def lineIndent (l : List Char) : List Char := l.takeWhile (fun c => c == ' ' || c == '\t')

/-- Longest common prefix, the net effect of dedent's margin-merging loop. -/
def lcp : List Char → List Char → List Char
  | a :: as, b :: bs => if a = b then a :: lcp as bs else []
  | _, _ => []

/-- `text.split('\n')` on character lists. -/
def splitNl : List Char → List (List Char)
  | [] => [[]]
  | c :: cs =>
    if c = '\n' then [] :: splitNl cs
    else
      match splitNl cs with
      | [] => [[c]]
      | h :: t => (c :: h) :: t

/-- `'\n'.join(lines)` on character lists. -/
def joinNl (ls : List (List Char)) : List Char := List.intercalate ['\n'] ls

/-- `textwrap.dedent`: blank out `[ \t]+`-only lines, compute the common
margin of the remaining content lines, and remove it from every line start
that carries it. -/
def pyDedent (s : List Char) : List Char :=
  let ls := (splitNl s).map (fun l => if lineBlank l then [] else l)
  let margin := (ls.foldl (fun acc l =>
    if lineHasContent l then
      match acc with
      | none => some (lineIndent l)
      | some m => some (lcp m (lineIndent l))
    else acc) none).getD []
  let ls2 := if margin = [] then ls
             else ls.map (fun l => if stripPfx margin l = none then l else l.drop margin.length)
  joinNl ls2

/-- `str.strip()` at the ASCII extent of whitespace. -/
def pyStrip (s : List Char) : List Char :=
  ((s.dropWhile pySpace).reverse.dropWhile pySpace).reverse

/-- `textwrap.dedent(content).strip()`, the normalization of
`Message.__post_init__`. -/
def pyNormalize (s : String) : String := ⟨pyStrip (pyDedent s.data)⟩

/-- Construct a `Message`, applying `__post_init__`. -/
def mkMessage (content role : String) : Message := ⟨pyNormalize content, role⟩

/-- The session state the claims are about: the graph's committed
transcript, edge list and node list, and the ephemeral
`st.session_state.last_expanded` marker. -/
structure AppState where
  conversation : List Message
  edges : List (String × String)
  nodes : List String
  last_expanded : Option String
  deriving DecidableEq, Repr

/-- `MindMap.parse_and_include_edges(output, replace)`. -/
def parse_and_include_edges (st : AppState) (output : String) (replace : Bool) : AppState :=
  let b := classify (pyMatchesStr output)
  let edges := if replace then b.new_edges else st.edges ++ b.new_edges
  let accepted := walkEdges b.remove_edges b.remove_nodes [] edges
  { st with edges := accepted, nodes := nodesOf accepted }

/-- `MindMap._delete_node(node)`: drop every edge whose frozenset contains
the node, re-derive the node list, and append the synthetic user message
`delete("<node>")` (normalized by the `Message` constructor) to the
transcript. -/
def _delete_node (st : AppState) (node : String) : AppState :=
  let edges := st.edges.filter (fun e => node ∉ fz e)
  { st with
    edges := edges
    nodes := nodesOf edges
    conversation := st.conversation ++ [mkMessage ("delete(\"" ++ node ++ "\")") "user"] }

/-- The external generation collaborator: a conversation in, either an
error (a raised exception in `ask_chatgpt`) or the reply's
`(content, role)` out. -/
def Gen (ε : Type) : Type := List Message → Except ε (String × String)

/-- The fixed seed transcript `START_CONVERSATION` (contents as they stand
after `Message.__post_init__`; no claim depends on these strings). -/
def START_CONVERSATION : List Message :=
  [mkMessage ("You are a useful mind map/undirected graph-generating AI that can generate mind maps\nbased on any input or instructions.") "system",
   mkMessage ("You have the ability to perform the following actions given a request\nto construct or modify a mind map/graph:\n\n1. add(node1, node2) - add an edge between node1 and node2\n2. delete(node1, node2) - delete the edge between node1 and node2\n3. delete(node1) - deletes every edge connected to node1\n\nNote that the graph is undirected and thus the order of the nodes does not matter\nand duplicates will be ignored. Another important note: the graph should be sparse,\nwith many nodes and few edges from each node. Too many edges will make it difficult\nto understand and hard to read. The answer should only include the actions to perform,\nnothing else. If the instructions are vague or even if only a single word is provided,\nstill generate a graph of multiple nodes and edges that that could makes sense in the\nsituation. Remember to think step by step and debate pros and cons before settling on\nan answer to accomplish the request as well as possible.\n\nHere is my first request: Add a mind map about machine learning.") "user",
   mkMessage ("add(\"Machine learning\",\"AI\")\nadd(\"Machine learning\", \"Reinforcement learning\")\nadd(\"Machine learning\", \"Supervised learning\")\nadd(\"Machine learning\", \"Unsupervised learning\")\nadd(\"Supervised learning\", \"Regression\")\nadd(\"Supervised learning\", \"Classification\")\nadd(\"Unsupervised learning\", \"Clustering\")\nadd(\"Unsupervised learning\", \"Anomaly Detection\")\nadd(\"Unsupervised learning\", \"Dimensionality Reduction\")\nadd(\"Unsupervised learning\", \"Association Rule Learning\")\nadd(\"Clustering\", \"K-means\")\nadd(\"Classification\", \"Logistic Regression\")\nadd(\"Reinforcement learning\", \"Proximal Policy Optimization\")\nadd(\"Reinforcement learning\", \"Q-learning\")") "assistant",
   mkMessage ("Remove the parts about reinforcement learning and K-means.") "user",
   mkMessage ("delete(\"Reinforcement learning\")\ndelete(\"Clustering\", \"K-means\")") "assistant"]

/-- Raw f-string of the initial-flow instruction (source indentation of the
triple-quoted literal preserved; the `Message` constructor dedents it). -/
def initInstrRaw (query : String) : String :=
  "\n                Great, now ignore all previous nodes and restart from scratch. I now want you do the following:\n\n                " ++ query ++ "\n            "

/-- Raw f-string of the extend-flow instruction for a selected node. -/
def extendInstrRaw (node : String) : String :=
  "\n                    add new edges to new nodes, starting from the node \"" ++ node ++ "\"\n                "

/-- The trial transcript of the initial flow:
`START_CONVERSATION + [instruction]`. -/
def initialTrial (query : String) : List Message :=
  START_CONVERSATION ++ [mkMessage (initInstrRaw query) "user"]

/-- The trial transcript of the extend flow for a selected node. -/
def extendTrialNode (st : AppState) (node : String) : List Message :=
  st.conversation ++ [mkMessage (extendInstrRaw node) "user"]

/-- The trial transcript of the extend flow for freeform text. -/
def extendTrialText (st : AppState) (text : String) : List Message :=
  st.conversation ++ [mkMessage text "user"]

/-- A valid label for the grammar: nonempty, all characters outside
`( ) "`. -/
def goodLabel (a : List Char) : Prop := a ≠ [] ∧ ∀ c ∈ a, isLabelChar c = true

/-- Every character is whitespace (for the run matched by `\s*`). -/
def allSpace (w : List Char) : Prop := ∀ c ∈ w, pySpace c = true

/-- The text contains no opening parenthesis.  Both patterns need a `(`
within their first seven characters, so such text can start no match. -/
def parenFree (l : List Char) : Prop := '(' ∉ l

/-- The exact character sequence of a two-argument command
`op("a",w"b")` with whitespace `w` after the comma. -/
def cmd1 (op a b w : List Char) : List Char :=
  op ++ '(' :: '"' :: (a ++ '"' :: ',' :: (w ++ '"' :: (b ++ ['"', ')'])))

/-- The exact character sequence of a one-argument command `delete("c")`. -/
def cmd2 (c : List Char) : List Char :=
  DEL ++ '(' :: '"' :: (c ++ ['"', ')'])

/-- No position of `t` starts a pattern1 match. -/
def noM1 (t : List Char) : Prop := ∀ u, isSfx u t → u ≠ [] → matchP1At u = none

/-- No position of `t` starts a pattern2 match. -/
def noM2 (t : List Char) : Prop := ∀ u, isSfx u t → u ≠ [] → matchP2At u = none

/-- Serialization of one edge as the line `add("a","b")` plus newline. -/
def serialOne (e : List Char × List Char) : List Char :=
  cmd1 ADD e.1 e.2 [] ++ ['\n']

/-- Serialization of an edge list, one command line per edge. -/
def serialChars : List (List Char × List Char) → List Char
  | [] => []
  | e :: es => serialOne e ++ serialChars es

/-- Serialization of a graph's edges to the command grammar. -/
def serializeEdges (E : List (String × String)) : String :=
  ⟨serialChars (E.map (fun e => (e.1.data, e.2.data)))⟩

/-- `output, self.conversation = ask_chatgpt(conversation)` followed by
`self.parse_and_include_edges(output, replace)`.  When `gen` fails, the
exception propagates before either assignment: the state returned is the
state as it stood at the call. -/
def commitRound {ε : Type} (gen : Gen ε) (st : AppState) (trial : List Message)
    (replace : Bool) : AppState × Option ε :=
  match gen trial with
  | Except.error e => (st, some e)
  | Except.ok reply =>
    let msg := mkMessage reply.1 reply.2
    let st2 := { st with conversation := trial ++ [msg] }
    (parse_and_include_edges st2 msg.content replace, none)

/-- `MindMap.ask_for_initial_graph(query)`: fresh trial transcript from the
seed conversation, `replace=True`. -/
def ask_for_initial_graph {ε : Type} (gen : Gen ε) (st : AppState) (query : String) :
    AppState × Option ε :=
  commitRound gen st (initialTrial query) true

/-- `MindMap.ask_for_extended_graph(selected_node, text)`: no-op when both
are absent; with a selected node the ephemeral `last_expanded` marker is
assigned before the generation call; `replace=False` in both variants. -/
def ask_for_extended_graph {ε : Type} (gen : Gen ε) (st : AppState)
    (selected_node text : Option String) : AppState × Option ε :=
  if selected_node = none ∧ text = none then (st, none)
  else
    match selected_node with
    | some n =>
      commitRound gen { st with last_expanded := some n } (extendTrialNode st n) false
    | none =>
      match text with
      | some t => commitRound gen st (extendTrialText st t) false
      | none => (st, none)

/-- A generator stub that always fails (used to exercise the failure path
of the flows at concrete inputs). -/
def genErrNat : Gen Nat := fun _ => Except.error 0

/-- An empty session state. -/
def st0 : AppState := ⟨[], [], [], none⟩

/-- A one-edge session state. -/
def stAB : AppState := ⟨[], [("a", "b")], ["a", "b"], none⟩

/-! ### Prefix and suffix helpers -/

theorem isPfx_nil (l : List Char) : isPfx [] l := ⟨l, rfl⟩

theorem isPfx_refl (l : List Char) : isPfx l l := ⟨[], by simp⟩

theorem isPfx_mem {p l : List Char} (h : isPfx p l) {c : Char} (hc : c ∈ p) : c ∈ l := by
  obtain ⟨t, rfl⟩ := h
  exact List.mem_append_left _ hc

theorem isPfx_length {p l : List Char} (h : isPfx p l) : p.length ≤ l.length := by
  obtain ⟨t, rfl⟩ := h
  simp

theorem isPfx_eq_take {p l : List Char} (h : isPfx p l) : p = l.take p.length := by
  obtain ⟨t, rfl⟩ := h
  simp

theorem isPfx_append_cases {w p r : List Char} (h : isPfx w (p ++ r)) :
    isPfx w p ∨ (isPfx p w ∧ isPfx (w.drop p.length) r) := by
  induction p generalizing w with
  | nil => exact Or.inr ⟨isPfx_nil _, by simpa using h⟩
  | cons c ps ih =>
    cases w with
    | nil => exact Or.inl (isPfx_nil _)
    | cons x ws =>
      obtain ⟨t, ht⟩ := h
      simp only [List.cons_append, List.cons.injEq] at ht
      obtain ⟨rfl, ht⟩ := ht
      rcases ih ⟨t, ht⟩ with h1 | ⟨⟨t2, ht2⟩, h3⟩
      · obtain ⟨t1, ht1⟩ := h1
        exact Or.inl ⟨t1, by simp [ht1]⟩
      · exact Or.inr ⟨⟨t2, by simp [ht2]⟩, by simpa using h3⟩

theorem isSfx_refl (l : List Char) : isSfx l l := ⟨[], rfl⟩

theorem isSfx_cons {u cs : List Char} (h : isSfx u cs) (c : Char) : isSfx u (c :: cs) := by
  obtain ⟨t, rfl⟩ := h
  exact ⟨c :: t, rfl⟩

theorem isSfx_cases {u : List Char} {c : Char} {cs : List Char} (h : isSfx u (c :: cs)) :
    u = c :: cs ∨ isSfx u cs := by
  obtain ⟨t, ht⟩ := h
  cases t with
  | nil => exact Or.inl ht
  | cons x t2 =>
    simp only [List.cons_append, List.cons.injEq] at ht
    exact Or.inr ⟨t2, ht.2⟩

theorem isSfx_mem {u l : List Char} (h : isSfx u l) {c : Char} (hc : c ∈ u) : c ∈ l := by
  obtain ⟨t, rfl⟩ := h
  exact List.mem_append_right _ hc

theorem isSfx_append_cases {u p r : List Char} (h : isSfx u (p ++ r)) :
    isSfx u r ∨ ∃ p0, isSfx p0 p ∧ p0 ≠ [] ∧ u = p0 ++ r := by
  induction p with
  | nil => exact Or.inl (by simpa using h)
  | cons c ps ih =>
    rcases isSfx_cases (by simpa using h) with h1 | h2
    · exact Or.inr ⟨c :: ps, isSfx_refl _, by simp, by simpa using h1⟩
    · rcases ih h2 with h3 | ⟨p0, hp0, hne, rfl⟩
      · exact Or.inl h3
      · exact Or.inr ⟨p0, isSfx_cons hp0 c, hne, rfl⟩

theorem isSfx_trans {u v l : List Char} (h1 : isSfx u v) (h2 : isSfx v l) : isSfx u l := by
  obtain ⟨t1, rfl⟩ := h1
  obtain ⟨t2, rfl⟩ := h2
  exact ⟨t2 ++ t1, by simp⟩

/-! ### stripPfx facts -/

theorem stripPfx_some {p s r : List Char} (h : stripPfx p s = some r) : s = p ++ r := by
  induction p generalizing s with
  | nil => simpa [stripPfx] using h
  | cons c ps ih =>
    cases s with
    | nil => simp [stripPfx] at h
    | cons x xs =>
      by_cases hx : c = x
      · subst hx
        simp only [stripPfx, if_pos rfl] at h
        simpa using ih h
      · simp [stripPfx, hx] at h

theorem stripPfx_self (p r : List Char) : stripPfx p (p ++ r) = some r := by
  induction p with
  | nil => simp [stripPfx]
  | cons c ps ih => simp [stripPfx, ih]

/-! ### Character class facts -/

theorem isLabelChar_ne_paren {c : Char} (h : isLabelChar c = true) : c ≠ '(' := by
  rintro rfl
  simp [isLabelChar] at h

theorem pySpace_ne_paren {c : Char} (h : pySpace c = true) : c ≠ '(' := by
  rintro rfl
  simp [pySpace] at h

/-! ### takeWhile and dropWhile on a delimited run -/

theorem dropWhile_run {p : Char → Bool} {l : List Char} {x : Char} {r : List Char}
    (hl : ∀ c ∈ l, p c = true) (hx : p x = false) :
    (l ++ x :: r).dropWhile p = x :: r := by
  induction l with
  | nil => simp [List.dropWhile_cons, hx]
  | cons c cs ih =>
    have hc : p c = true := hl c (by simp)
    simp only [List.cons_append, List.dropWhile_cons, hc, if_true]
    exact ih (fun d hd => hl d (by simp [hd]))

theorem takeWhile_run {p : Char → Bool} {l : List Char} {x : Char} {r : List Char}
    (hl : ∀ c ∈ l, p c = true) (hx : p x = false) :
    (l ++ x :: r).takeWhile p = l := by
  induction l with
  | nil => simp [List.takeWhile_cons, hx]
  | cons c cs ih =>
    have hc : p c = true := hl c (by simp)
    simp only [List.cons_append, List.takeWhile_cons, hc, if_true, List.cons.injEq, true_and]
    exact ih (fun d hd => hl d (by simp [hd]))

/-! ### Anchored matcher facts -/

theorem matchLabel_complete {a r : List Char} (ha : goodLabel a) :
    matchLabel (a ++ '"' :: r) = some (a, r) := by
  have hq : isLabelChar '"' = false := by simp [isLabelChar]
  unfold matchLabel
  rw [dropWhile_run ha.2 hq, takeWhile_run ha.2 hq]
  simp [ha.1]

theorem matchLabel_some {s a r : List Char} (h : matchLabel s = some (a, r)) :
    s = a ++ '"' :: r ∧ a ≠ [] := by
  unfold matchLabel at h
  split at h
  case _ heq =>
    split at h
    · exact absurd h (by simp)
    · rename_i hne
      simp only [Option.some.injEq, Prod.mk.injEq] at h
      obtain ⟨rfl, rfl⟩ := h
      refine ⟨?_, hne⟩
      conv_lhs => rw [← List.takeWhile_append_dropWhile isLabelChar s]
      rw [heq]
  case _ => exact absurd h (by simp)

theorem matchOp_some {s op r : List Char} (h : matchOp s = some (op, r)) :
    (op = ADD ∨ op = DEL) ∧ s = op ++ r := by
  unfold matchOp at h
  split at h
  case _ heq =>
    simp only [Option.some.injEq, Prod.mk.injEq] at h
    obtain ⟨rfl, rfl⟩ := h
    exact ⟨Or.inl rfl, stripPfx_some heq⟩
  case _ =>
    split at h
    case _ heq =>
      simp only [Option.some.injEq, Prod.mk.injEq] at h
      obtain ⟨rfl, rfl⟩ := h
      exact ⟨Or.inr rfl, stripPfx_some heq⟩
    case _ => exact absurd h (by simp)

theorem matchOp_cmd {op : List Char} (hop : op = ADD ∨ op = DEL) (τ : List Char) :
    matchOp (op ++ τ) = some (op, τ) := by
  rcases hop with rfl | rfl
  · unfold matchOp
    rw [stripPfx_self]
  · unfold matchOp
    have h1 : stripPfx ADD (DEL ++ τ) = none := by simp [ADD, DEL, stripPfx]
    rw [h1, stripPfx_self]

theorem matchP1At_cmd1 {op a b w : List Char} (hop : op = ADD ∨ op = DEL)
    (ha : goodLabel a) (hb : goodLabel b) (hw : allSpace w) (rest : List Char) :
    matchP1At (cmd1 op a b w ++ rest) = some ((op, a, b), rest) := by
  have hq : pySpace '"' = false := by simp [pySpace]
  have hshape : cmd1 op a b w ++ rest =
      op ++ ('(' :: '"' :: (a ++ '"' :: ',' :: (w ++ '"' :: (b ++ '"' :: ')' :: rest)))) := by
    simp [cmd1]
  rw [hshape]
  have h1 := matchOp_cmd hop
      ('(' :: '"' :: (a ++ '"' :: ',' :: (w ++ '"' :: (b ++ '"' :: ')' :: rest))))
  have h2 : stripPfx ['(', '"']
      ('(' :: '"' :: (a ++ '"' :: ',' :: (w ++ '"' :: (b ++ '"' :: ')' :: rest)))) =
      some (a ++ '"' :: ',' :: (w ++ '"' :: (b ++ '"' :: ')' :: rest))) := by
    simp [stripPfx]
  have h3 : matchLabel (a ++ '"' :: ',' :: (w ++ '"' :: (b ++ '"' :: ')' :: rest))) =
      some (a, ',' :: (w ++ '"' :: (b ++ '"' :: ')' :: rest))) := matchLabel_complete ha
  have h4 : stripPfx [','] (',' :: (w ++ '"' :: (b ++ '"' :: ')' :: rest))) =
      some (w ++ '"' :: (b ++ '"' :: ')' :: rest)) := by simp [stripPfx]
  have h5 : (w ++ '"' :: (b ++ '"' :: ')' :: rest)).dropWhile pySpace =
      '"' :: (b ++ '"' :: ')' :: rest) := dropWhile_run hw hq
  have h6 : stripPfx ['"'] ('"' :: (b ++ '"' :: ')' :: rest)) =
      some (b ++ '"' :: ')' :: rest) := by simp [stripPfx]
  have h7 : matchLabel (b ++ '"' :: ')' :: rest) = some (b, ')' :: rest) :=
    matchLabel_complete hb
  have h8 : stripPfx [')'] (')' :: rest) = some rest := by simp [stripPfx]
  simp only [matchP1At, h1, h2, h3, h4, h5, h6, h7, h8]

theorem matchP2At_cmd2 {c : List Char} (hc : goodLabel c) (rest : List Char) :
    matchP2At (cmd2 c ++ rest) = some (c, rest) := by
  have hshape : cmd2 c ++ rest = DEL ++ ('(' :: '"' :: (c ++ '"' :: ')' :: rest)) := by
    simp [cmd2]
  rw [hshape]
  have h2 : stripPfx ['(', '"'] ('(' :: '"' :: (c ++ '"' :: ')' :: rest)) =
      some (c ++ '"' :: ')' :: rest) := by simp [stripPfx]
  have h3 : matchLabel (c ++ '"' :: ')' :: rest) = some (c, ')' :: rest) :=
    matchLabel_complete hc
  have h4 : stripPfx [')'] (')' :: rest) = some rest := by simp [stripPfx]
  simp only [matchP2At, stripPfx_self, h2, h3, h4]

theorem matchP1At_cmd2_none {c : List Char} (hc : goodLabel c) (rest : List Char) :
    matchP1At (cmd2 c ++ rest) = none := by
  have hshape : cmd2 c ++ rest = DEL ++ ('(' :: '"' :: (c ++ '"' :: ')' :: rest)) := by
    simp [cmd2]
  rw [hshape]
  have h1 := matchOp_cmd (Or.inr rfl) ('(' :: '"' :: (c ++ '"' :: ')' :: rest))
  have h2 : stripPfx ['(', '"'] ('(' :: '"' :: (c ++ '"' :: ')' :: rest)) =
      some (c ++ '"' :: ')' :: rest) := by simp [stripPfx]
  have h3 : matchLabel (c ++ '"' :: ')' :: rest) = some (c, ')' :: rest) :=
    matchLabel_complete hc
  have h4 : stripPfx [','] (')' :: rest) = none := by simp [stripPfx]
  simp only [matchP1At, h1, h2, h3, h4]

theorem matchP2At_cmd1_none {op a b w : List Char} (hop : op = ADD ∨ op = DEL)
    (ha : goodLabel a) (rest : List Char) :
    matchP2At (cmd1 op a b w ++ rest) = none := by
  rcases hop with rfl | rfl
  · have hshape : cmd1 ADD a b w ++ rest =
        'a' :: ('d' :: 'd' :: ('(' :: '"' :: (a ++ '"' :: ',' :: (w ++ '"' :: (b ++ ['"', ')']))))) ++ rest := by
      simp [cmd1, ADD]
    rw [hshape]
    simp [matchP2At, stripPfx, DEL]
  · have hshape : cmd1 DEL a b w ++ rest =
        DEL ++ ('(' :: '"' :: (a ++ '"' :: ',' :: ((w ++ '"' :: (b ++ ['"', ')'])) ++ rest))) := by
      simp [cmd1]
    rw [hshape]
    have h2 : stripPfx ['(', '"']
        ('(' :: '"' :: (a ++ '"' :: ',' :: ((w ++ '"' :: (b ++ ['"', ')'])) ++ rest))) =
        some (a ++ '"' :: ',' :: ((w ++ '"' :: (b ++ ['"', ')'])) ++ rest)) := by simp [stripPfx]
    have h3 : matchLabel (a ++ '"' :: ',' :: ((w ++ '"' :: (b ++ ['"', ')'])) ++ rest)) =
        some (a, ',' :: ((w ++ '"' :: (b ++ ['"', ')'])) ++ rest)) := matchLabel_complete ha
    have h4 : stripPfx [')'] (',' :: ((w ++ '"' :: (b ++ ['"', ')'])) ++ rest)) = none := by
      simp [stripPfx]
    simp only [matchP2At, stripPfx_self, h2, h3, h4]

theorem dropWhile_length_le (p : Char → Bool) (l : List Char) :
    (l.dropWhile p).length ≤ l.length := by
  induction l with
  | nil => simp
  | cons c cs ih =>
    by_cases hc : p c
    · simp only [List.dropWhile_cons, hc, if_true, List.length_cons]
      exact Nat.le_succ_of_le ih
    · simp [List.dropWhile_cons, hc]

theorem matchP1At_some_shape {s : List Char} {op a b rest : List Char}
    (h : matchP1At s = some ((op, a, b), rest)) :
    (op = ADD ∨ op = DEL) ∧ ∃ u, s = op ++ '(' :: '"' :: u ∧ u.length ≥ rest.length + 1 := by
  unfold matchP1At at h
  split at h
  · exact absurd h (by simp)
  case _ op0 r1 heqOp =>
  split at h
  · exact absurd h (by simp)
  case _ r2 heq2 =>
  split at h
  · exact absurd h (by simp)
  case _ a0 r3 heq3 =>
  split at h
  · exact absurd h (by simp)
  case _ r4 heq4 =>
  split at h
  · exact absurd h (by simp)
  case _ r5 heq5 =>
  split at h
  · exact absurd h (by simp)
  case _ b0 r6 heq6 =>
  split at h
  · exact absurd h (by simp)
  case _ rest0 heq7 =>
  simp only [Option.some.injEq, Prod.mk.injEq] at h
  obtain ⟨⟨rfl, rfl, rfl⟩, rfl⟩ := h
  obtain ⟨hop, hs⟩ := matchOp_some heqOp
  have e1 : r1 = '(' :: '"' :: r2 := by simpa using stripPfx_some heq2
  obtain ⟨e2, -⟩ := matchLabel_some heq3
  have e3 : r3 = ',' :: r4 := by simpa using stripPfx_some heq4
  have e4 : r4.dropWhile pySpace = '"' :: r5 := by simpa using stripPfx_some heq5
  obtain ⟨e5, -⟩ := matchLabel_some heq6
  have e6 : r6 = ')' :: rest0 := by simpa using stripPfx_some heq7
  refine ⟨hop, r2, by rw [hs, e1], ?_⟩
  have l2 := congrArg List.length e2
  have l3 := congrArg List.length e3
  have l4 := congrArg List.length e4
  have l5 := congrArg List.length e5
  have l6 := congrArg List.length e6
  have hdw := dropWhile_length_le pySpace r4
  simp only [List.length_append, List.length_cons] at l2 l3 l4 l5 l6
  omega

theorem matchP1At_shrink {s : List Char} {m : List Char × List Char × List Char}
    {rest : List Char} (h : matchP1At s = some (m, rest)) : rest.length < s.length := by
  obtain ⟨m1, m2, m3⟩ := m
  obtain ⟨-, u, hs, hu⟩ := matchP1At_some_shape h
  have : s.length = m1.length + 2 + u.length := by simp [hs]; omega
  omega

theorem matchP2At_some_shape {s : List Char} {a rest : List Char}
    (h : matchP2At s = some (a, rest)) :
    ∃ u, s = DEL ++ '(' :: '"' :: u ∧ u.length ≥ rest.length + 1 := by
  unfold matchP2At at h
  split at h
  · exact absurd h (by simp)
  case _ r1 heq1 =>
  split at h
  · exact absurd h (by simp)
  case _ r2 heq2 =>
  split at h
  · exact absurd h (by simp)
  case _ a0 r3 heq3 =>
  split at h
  · exact absurd h (by simp)
  case _ rest0 heq4 =>
  simp only [Option.some.injEq, Prod.mk.injEq] at h
  obtain ⟨rfl, rfl⟩ := h
  have hs := stripPfx_some heq1
  have e1 : r1 = '(' :: '"' :: r2 := by simpa using stripPfx_some heq2
  obtain ⟨e2, -⟩ := matchLabel_some heq3
  have e3 : r3 = ')' :: rest0 := by simpa using stripPfx_some heq4
  refine ⟨r2, by rw [hs, e1], ?_⟩
  have l2 := congrArg List.length e2
  have l3 := congrArg List.length e3
  simp only [List.length_append, List.length_cons] at l2 l3
  omega

theorem matchP2At_shrink {s a rest : List Char} (h : matchP2At s = some (a, rest)) :
    rest.length < s.length := by
  obtain ⟨u, hs, hu⟩ := matchP2At_some_shape h
  have : s.length = DEL.length + 2 + u.length := by simp [hs]; omega
  simp [DEL] at this
  omega

theorem matchP1At_paren {s : List Char} {x : (List Char × List Char × List Char) × List Char}
    (h : matchP1At s = some x) : '(' ∈ s.take 7 := by
  obtain ⟨⟨op, a, b⟩, rest⟩ := x
  obtain ⟨hop, u, hs, -⟩ := matchP1At_some_shape h
  rcases hop with hop | hop <;>
    · rw [hs, hop]
      simp [ADD, DEL, List.take_append_eq_append_take]

theorem matchP2At_paren {s : List Char} {x : List Char × List Char}
    (h : matchP2At s = some x) : '(' ∈ s.take 7 := by
  obtain ⟨a, rest⟩ := x
  obtain ⟨u, hs, -⟩ := matchP2At_some_shape h
  rw [hs]
  simp [DEL, List.take_append_eq_append_take]

theorem m1_none_take7 {s : List Char} (h : '(' ∉ s.take 7) : matchP1At s = none := by
  cases hm : matchP1At s with
  | none => rfl
  | some x => exact absurd (matchP1At_paren hm) h

theorem m2_none_take7 {s : List Char} (h : '(' ∉ s.take 7) : matchP2At s = none := by
  cases hm : matchP2At s with
  | none => rfl
  | some x => exact absurd (matchP2At_paren hm) h

theorem m1_none_head {c : Char} {cs : List Char} (h1 : c ≠ 'a') (h2 : c ≠ 'd') :
    matchP1At (c :: cs) = none := by
  have ha : ¬ ('a' = c) := fun h => h1 h.symm
  have hd : ¬ ('d' = c) := fun h => h2 h.symm
  simp [matchP1At, matchOp, ADD, DEL, stripPfx, ha, hd]

theorem m2_none_head {c : Char} {cs : List Char} (h2 : c ≠ 'd') :
    matchP2At (c :: cs) = none := by
  have hd : ¬ ('d' = c) := fun h => h2 h.symm
  simp [matchP2At, DEL, stripPfx, hd]

theorem matchP1At_nil : matchP1At [] = none := by
  simp [matchP1At, matchOp, ADD, DEL, stripPfx]

theorem matchP2At_nil : matchP2At [] = none := by
  simp [matchP2At, DEL, stripPfx]

/-! ### Scanner facts -/

theorem scan1_fuel {f1 : Nat} : ∀ {f2 : Nat} {t : List Char},
    t.length ≤ f1 → t.length ≤ f2 → scan1 f1 t = scan1 f2 t := by
  induction f1 with
  | zero =>
    intro f2 t h1 h2
    have : t = [] := List.length_eq_zero.mp (Nat.le_zero.mp h1)
    subst this
    cases f2 <;> rfl
  | succ g ih =>
    intro f2 t h1 h2
    cases t with
    | nil => cases f2 <;> rfl
    | cons c cs =>
      cases f2 with
      | zero => simp at h2
      | succ g2 =>
        show scan1 (g + 1) (c :: cs) = scan1 (g2 + 1) (c :: cs)
        simp only [scan1]
        cases hm : matchP1At (c :: cs) with
        | none =>
          have hl : cs.length ≤ g := by simp at h1; omega
          have hl2 : cs.length ≤ g2 := by simp at h2; omega
          exact ih hl hl2
        | some x =>
          obtain ⟨m, rest⟩ := x
          have hr := matchP1At_shrink hm
          have hl : rest.length ≤ g := by simp at h1 hr; omega
          have hl2 : rest.length ≤ g2 := by simp at h2 hr; omega
          show m :: scan1 g rest = m :: scan1 g2 rest
          rw [ih hl hl2]

theorem scan2_fuel {f1 : Nat} : ∀ {f2 : Nat} {t : List Char},
    t.length ≤ f1 → t.length ≤ f2 → scan2 f1 t = scan2 f2 t := by
  induction f1 with
  | zero =>
    intro f2 t h1 h2
    have : t = [] := List.length_eq_zero.mp (Nat.le_zero.mp h1)
    subst this
    cases f2 <;> rfl
  | succ g ih =>
    intro f2 t h1 h2
    cases t with
    | nil => cases f2 <;> rfl
    | cons c cs =>
      cases f2 with
      | zero => simp at h2
      | succ g2 =>
        show scan2 (g + 1) (c :: cs) = scan2 (g2 + 1) (c :: cs)
        simp only [scan2]
        cases hm : matchP2At (c :: cs) with
        | none =>
          have hl : cs.length ≤ g := by simp at h1; omega
          have hl2 : cs.length ≤ g2 := by simp at h2; omega
          exact ih hl hl2
        | some x =>
          obtain ⟨m, rest⟩ := x
          have hr := matchP2At_shrink hm
          have hl : rest.length ≤ g := by simp at h1 hr; omega
          have hl2 : rest.length ≤ g2 := by simp at h2 hr; omega
          show m :: scan2 g rest = m :: scan2 g2 rest
          rw [ih hl hl2]

theorem scan1_nil_of_noM1 {t : List Char} (h : noM1 t) : ∀ f, scan1 f t = [] := by
  intro f
  induction f generalizing t with
  | zero => rfl
  | succ g ih =>
    cases t with
    | nil => rfl
    | cons c cs =>
      have hm : matchP1At (c :: cs) = none := h (c :: cs) (isSfx_refl _) (by simp)
      simp only [scan1, hm]
      exact ih (fun u hu hne => h u (isSfx_cons hu c) hne)

theorem scan2_nil_of_noM2 {t : List Char} (h : noM2 t) : ∀ f, scan2 f t = [] := by
  intro f
  induction f generalizing t with
  | zero => rfl
  | succ g ih =>
    cases t with
    | nil => rfl
    | cons c cs =>
      have hm : matchP2At (c :: cs) = none := h (c :: cs) (isSfx_refl _) (by simp)
      simp only [scan2, hm]
      exact ih (fun u hu hne => h u (isSfx_cons hu c) hne)

theorem scan1_skip {p : List Char} : ∀ {f : Nat} {rest : List Char},
    (p ++ rest).length ≤ f →
    (∀ p0, isSfx p0 p → p0 ≠ [] → matchP1At (p0 ++ rest) = none) →
    scan1 f (p ++ rest) = scan1 rest.length rest := by
  induction p with
  | nil =>
    intro f rest hf _
    exact scan1_fuel (by simpa using hf) le_rfl
  | cons c ps ih =>
    intro f rest hf h
    cases f with
    | zero => simp at hf
    | succ g =>
      have hm : matchP1At (c :: (ps ++ rest)) = none := by
        have := h (c :: ps) (isSfx_refl _) (by simp)
        simpa using this
      show scan1 (g + 1) (c :: (ps ++ rest)) = scan1 rest.length rest
      simp only [scan1, hm]
      exact ih (by simp at hf ⊢; omega) (fun p0 hp0 hne => h p0 (isSfx_cons hp0 c) hne)

theorem scan2_skip {p : List Char} : ∀ {f : Nat} {rest : List Char},
    (p ++ rest).length ≤ f →
    (∀ p0, isSfx p0 p → p0 ≠ [] → matchP2At (p0 ++ rest) = none) →
    scan2 f (p ++ rest) = scan2 rest.length rest := by
  induction p with
  | nil =>
    intro f rest hf _
    exact scan2_fuel (by simpa using hf) le_rfl
  | cons c ps ih =>
    intro f rest hf h
    cases f with
    | zero => simp at hf
    | succ g =>
      have hm : matchP2At (c :: (ps ++ rest)) = none := by
        have := h (c :: ps) (isSfx_refl _) (by simp)
        simpa using this
      show scan2 (g + 1) (c :: (ps ++ rest)) = scan2 rest.length rest
      simp only [scan2, hm]
      exact ih (by simp at hf ⊢; omega) (fun p0 hp0 hne => h p0 (isSfx_cons hp0 c) hne)

theorem scan1_step {t : List Char} {m : List Char × List Char × List Char} {rest : List Char}
    {f : Nat} (hm : matchP1At t = some (m, rest)) (hf : t.length ≤ f + 1) :
    scan1 (f + 1) t = m :: scan1 rest.length rest := by
  cases t with
  | nil => rw [matchP1At_nil] at hm; exact absurd hm (by simp)
  | cons c cs =>
    simp only [scan1, hm]
    have hr := matchP1At_shrink hm
    have : rest.length ≤ f := by simp at hf hr; omega
    show m :: scan1 f rest = m :: scan1 rest.length rest
    rw [scan1_fuel this le_rfl]

theorem scan2_step {t : List Char} {m rest : List Char}
    {f : Nat} (hm : matchP2At t = some (m, rest)) (hf : t.length ≤ f + 1) :
    scan2 (f + 1) t = m :: scan2 rest.length rest := by
  cases t with
  | nil => rw [matchP2At_nil] at hm; exact absurd hm (by simp)
  | cons c cs =>
    simp only [scan2, hm]
    have hr := matchP2At_shrink hm
    have : rest.length ≤ f := by simp at hf hr; omega
    show m :: scan2 f rest = m :: scan2 rest.length rest
    rw [scan2_fuel this le_rfl]

/-! ### Failure of matches that would straddle into a command -/

theorem paren_take_append {c0 s : List Char} (h1 : parenFree c0)
    (h2 : parenFree (s.take 4)) (h3 : 3 ≤ c0.length) : '(' ∉ (c0 ++ s).take 7 := by
  intro hmem
  rw [List.take_append_eq_append_take] at hmem
  rcases List.mem_append.mp hmem with h | h
  · exact h1 (List.take_subset _ _ h)
  · have hle : 7 - c0.length ≤ 4 := by omega
    have e : (s.take 4).take (7 - c0.length) = s.take (7 - c0.length) := by
      rw [List.take_take, min_eq_left hle]
    rw [← e] at h
    exact h2 (List.take_subset _ _ h)

theorem noM1_of_parenFree {s : List Char} (h : parenFree s) : noM1 s :=
  fun u hu _ => m1_none_take7 (fun hp => h (isSfx_mem hu (List.take_subset _ _ hp)))

theorem noM2_of_parenFree {s : List Char} (h : parenFree s) : noM2 s :=
  fun u hu _ => m2_none_take7 (fun hp => h (isSfx_mem hu (List.take_subset _ _ hp)))

theorem m1_none_pfxCmd {p0 rest : List Char} (hne : p0 ≠ []) (hpf : parenFree p0)
    (hhead : (∃ v, rest = ADD ++ '(' :: '"' :: v) ∨ (∃ v, rest = DEL ++ '(' :: '"' :: v)) :
    matchP1At (p0 ++ rest) = none := by
  cases hm : matchP1At (p0 ++ rest) with
  | none => rfl
  | some x =>
    exfalso
    obtain ⟨⟨op, a, b⟩, r⟩ := x
    obtain ⟨hop, u, hs, -⟩ := matchP1At_some_shape hm
    have hw : isPfx (op ++ ['(', '"']) (p0 ++ rest) := ⟨u, by rw [hs]; simp⟩
    rcases isPfx_append_cases hw with hL | ⟨hp, hdp⟩
    · exact hpf (isPfx_mem hL (by simp))
    · rcases hop with rfl | rfl
      · have hk1 : 1 ≤ p0.length := List.length_pos.mpr hne
        have hk2 : p0.length ≤ 5 := by simpa [ADD] using isPfx_length hp
        have hpeq := isPfx_eq_take hp
        generalize hn : p0.length = n at hpeq hdp hk1 hk2
        interval_cases n <;>
          simp only [ADD, List.cons_append, List.nil_append, List.take, List.drop] at hpeq hdp <;>
          first
            | (apply hpf; rw [hpeq]; decide)
            | (rcases hhead with ⟨v, rfl⟩ | ⟨v, rfl⟩ <;>
                (obtain ⟨t, ht⟩ := hdp; simp [ADD, DEL] at ht))
      · have hk1 : 1 ≤ p0.length := List.length_pos.mpr hne
        have hk2 : p0.length ≤ 8 := by simpa [DEL] using isPfx_length hp
        have hpeq := isPfx_eq_take hp
        generalize hn : p0.length = n at hpeq hdp hk1 hk2
        interval_cases n <;>
          simp only [DEL, List.cons_append, List.nil_append, List.take, List.drop] at hpeq hdp <;>
          first
            | (apply hpf; rw [hpeq]; decide)
            | (rcases hhead with ⟨v, rfl⟩ | ⟨v, rfl⟩ <;>
                (obtain ⟨t, ht⟩ := hdp; simp [ADD, DEL] at ht))

theorem m2_none_pfxCmd {p0 rest : List Char} (hne : p0 ≠ []) (hpf : parenFree p0)
    (hhead : (∃ v, rest = ADD ++ '(' :: '"' :: v) ∨ (∃ v, rest = DEL ++ '(' :: '"' :: v)) :
    matchP2At (p0 ++ rest) = none := by
  cases hm : matchP2At (p0 ++ rest) with
  | none => rfl
  | some x =>
    exfalso
    obtain ⟨a, r⟩ := x
    obtain ⟨u, hs, -⟩ := matchP2At_some_shape hm
    have hw : isPfx (DEL ++ ['(', '"']) (p0 ++ rest) := ⟨u, by rw [hs]; simp⟩
    rcases isPfx_append_cases hw with hL | ⟨hp, hdp⟩
    · exact hpf (isPfx_mem hL (by simp))
    · have hk1 : 1 ≤ p0.length := List.length_pos.mpr hne
      have hk2 : p0.length ≤ 8 := by simpa [DEL] using isPfx_length hp
      have hpeq := isPfx_eq_take hp
      generalize hn : p0.length = n at hpeq hdp hk1 hk2
      interval_cases n <;>
        simp only [DEL, List.cons_append, List.nil_append, List.take, List.drop] at hpeq hdp <;>
        first
          | (apply hpf; rw [hpeq]; decide)
          | (rcases hhead with ⟨v, rfl⟩ | ⟨v, rfl⟩ <;>
              (obtain ⟨t, ht⟩ := hdp; simp [ADD, DEL] at ht))

/-! ### parenFree combinators -/

theorem parenFree_nil : parenFree [] := by simp [parenFree]

theorem parenFree_append {l1 l2 : List Char} (h1 : parenFree l1) (h2 : parenFree l2) :
    parenFree (l1 ++ l2) := by
  simp only [parenFree, List.mem_append] at h1 h2 ⊢
  rintro (h | h)
  · exact h1 h
  · exact h2 h

theorem parenFree_cons {c : Char} {l : List Char} (hc : c ≠ '(') (h : parenFree l) :
    parenFree (c :: l) := by
  simp only [parenFree, List.mem_cons] at h ⊢
  rintro (h2 | h2)
  · exact hc h2.symm
  · exact h h2

theorem parenFree_label {a : List Char} (ha : ∀ c ∈ a, isLabelChar c = true) :
    parenFree a := by
  intro hmem
  have := ha '(' hmem
  simp [isLabelChar] at this

theorem parenFree_space {w : List Char} (hw : allSpace w) : parenFree w := by
  intro hmem
  have := hw '(' hmem
  simp [pySpace] at this

theorem parenFree_sfx {u l : List Char} (h : isSfx u l) (hl : parenFree l) : parenFree u :=
  fun hmem => hl (isSfx_mem h hmem)

theorem isSfx_nil {u : List Char} (h : isSfx u []) : u = [] := by
  obtain ⟨t, ht⟩ := h
  exact (List.append_eq_nil.mp ht).2

/-! ### No pattern match can start strictly inside a command -/

theorem m1_sfx_zone {c0 s : List Char} (hpf : parenFree c0) (h3 : 3 ≤ c0.length)
    (hs4 : parenFree (s.take 4)) : matchP1At (c0 ++ s) = none :=
  m1_none_take7 (paren_take_append hpf hs4 h3)

theorem m2_sfx_zone {c0 s : List Char} (hpf : parenFree c0) (h3 : 3 ≤ c0.length)
    (hs4 : parenFree (s.take 4)) : matchP2At (c0 ++ s) = none :=
  m2_none_take7 (paren_take_append hpf hs4 h3)

theorem isSfx_ADD {u : List Char} (h : isSfx u ADD) :
    u = ADD ∨ u = ['d', 'd'] ∨ u = ['d'] ∨ u = [] := by
  have h0 : isSfx u ('a' :: ['d', 'd']) := by simpa [ADD] using h
  rcases isSfx_cases h0 with h1 | h1
  · exact Or.inl (by simp [ADD, h1])
  rcases isSfx_cases h1 with h2 | h2
  · exact Or.inr (Or.inl h2)
  rcases isSfx_cases h2 with h3 | h3
  · exact Or.inr (Or.inr (Or.inl h3))
  · exact Or.inr (Or.inr (Or.inr (isSfx_nil h3)))

theorem isSfx_DEL {u : List Char} (h : isSfx u DEL) :
    u = DEL ∨ u = ['e', 'l', 'e', 't', 'e'] ∨ u = ['l', 'e', 't', 'e'] ∨
      u = ['e', 't', 'e'] ∨ u = ['t', 'e'] ∨ u = ['e'] ∨ u = [] := by
  have h0 : isSfx u ('d' :: ['e', 'l', 'e', 't', 'e']) := by simpa [DEL] using h
  rcases isSfx_cases h0 with h1 | h1
  · exact Or.inl (by simp [DEL, h1])
  rcases isSfx_cases h1 with h2 | h2
  · exact Or.inr (Or.inl h2)
  rcases isSfx_cases h2 with h3 | h3
  · exact Or.inr (Or.inr (Or.inl h3))
  rcases isSfx_cases h3 with h4 | h4
  · exact Or.inr (Or.inr (Or.inr (Or.inl h4)))
  rcases isSfx_cases h4 with h5 | h5
  · exact Or.inr (Or.inr (Or.inr (Or.inr (Or.inl h5))))
  rcases isSfx_cases h5 with h6 | h6
  · exact Or.inr (Or.inr (Or.inr (Or.inr (Or.inr (Or.inl h6)))))
  · exact Or.inr (Or.inr (Or.inr (Or.inr (Or.inr (Or.inr (isSfx_nil h6))))))

theorem m2_dd (l : List Char) : matchP2At ('d' :: 'd' :: l) = none := by
  simp [matchP2At, stripPfx, DEL]

theorem m2_dparen (l : List Char) : matchP2At ('d' :: '(' :: l) = none := by
  simp [matchP2At, stripPfx, DEL]

theorem m2_none_cmd1_sfx {op a b w s : List Char} (hop : op = ADD ∨ op = DEL)
    (ha : goodLabel a) (hb : goodLabel b) (hw : allSpace w)
    (hs4 : parenFree (s.take 4)) :
    ∀ c0, isSfx c0 (cmd1 op a b w) → c0 ≠ [] → matchP2At (c0 ++ s) = none := by
  intro c0 hsf hne
  have hq : ('"' : Char) ≠ '(' := by decide
  have hcm : (',' : Char) ≠ '(' := by decide
  have hcp : (')' : Char) ≠ '(' := by decide
  have hTail : parenFree ('"' :: ',' :: (w ++ '"' :: (b ++ ['"', ')']))) := by
    refine parenFree_cons hq (parenFree_cons hcm (parenFree_append (parenFree_space hw) ?_))
    refine parenFree_cons hq (parenFree_append (parenFree_label hb.2) ?_)
    exact parenFree_cons hq (parenFree_cons hcp parenFree_nil)
  have hshape : cmd1 op a b w =
      op ++ ('(' :: '"' :: (a ++ '"' :: ',' :: (w ++ '"' :: (b ++ ['"', ')'])))) := by
    simp [cmd1]
  rw [hshape] at hsf
  rcases isSfx_append_cases hsf with hA | ⟨op0, hop0, hop0ne, rfl⟩
  · rcases isSfx_cases hA with rfl | hA2
    · exact m2_none_head (by decide)
    rcases isSfx_cases hA2 with rfl | hA3
    · exact m2_none_head (by decide)
    rcases isSfx_append_cases hA3 with hA4 | ⟨a0, ha0, ha0ne, rfl⟩
    · rcases isSfx_cases hA4 with rfl | hA5
      · exact m2_none_head (by decide)
      rcases isSfx_cases hA5 with rfl | hA6
      · exact m2_none_head (by decide)
      rcases isSfx_append_cases hA6 with hA7 | ⟨w0, hw0, hw0ne, rfl⟩
      · rcases isSfx_cases hA7 with rfl | hA8
        · exact m2_none_head (by decide)
        rcases isSfx_append_cases hA8 with hA9 | ⟨b0, hb0, hb0ne, rfl⟩
        · rcases isSfx_cases hA9 with rfl | hA10
          · exact m2_none_head (by decide)
          rcases isSfx_cases hA10 with rfl | hA11
          · exact m2_none_head (by decide)
          · exact absurd (isSfx_nil hA11) hne
        · refine m2_sfx_zone ?_ ?_ hs4
          · exact parenFree_append (parenFree_sfx hb0 (parenFree_label hb.2))
              (parenFree_cons hq (parenFree_cons hcp parenFree_nil))
          · have : b0.length ≥ 1 := List.length_pos.mpr hb0ne
            simp only [List.length_append, List.length_cons, List.length_nil]
            omega
      · refine m2_sfx_zone ?_ ?_ hs4
        · refine parenFree_append (parenFree_sfx hw0 (parenFree_space hw)) ?_
          refine parenFree_cons hq (parenFree_append (parenFree_label hb.2) ?_)
          exact parenFree_cons hq (parenFree_cons hcp parenFree_nil)
        · simp only [List.length_append, List.length_cons, List.length_nil]
          omega
    · refine m2_sfx_zone ?_ ?_ hs4
      · exact parenFree_append (parenFree_sfx ha0 (parenFree_label ha.2)) hTail
      · simp only [List.length_append, List.length_cons, List.length_nil]
        omega
  · rcases hop with rfl | rfl
    · rcases isSfx_ADD hop0 with rfl | rfl | rfl | rfl
      · have e : (ADD ++ ('(' :: '"' :: (a ++ '"' :: ',' :: (w ++ '"' :: (b ++ ['"', ')']))))) ++ s
            = cmd1 ADD a b w ++ s := by simp [cmd1]
        rw [e]
        exact matchP2At_cmd1_none (Or.inl rfl) ha s
      · exact m2_dd _
      · exact m2_dparen _
      · exact absurd rfl hop0ne
    · rcases isSfx_DEL hop0 with rfl | rfl | rfl | rfl | rfl | rfl | rfl
      · have e : (DEL ++ ('(' :: '"' :: (a ++ '"' :: ',' :: (w ++ '"' :: (b ++ ['"', ')']))))) ++ s
            = cmd1 DEL a b w ++ s := by simp [cmd1]
        rw [e]
        exact matchP2At_cmd1_none (Or.inr rfl) ha s
      · exact m2_none_head (by decide)
      · exact m2_none_head (by decide)
      · exact m2_none_head (by decide)
      · exact m2_none_head (by decide)
      · exact m2_none_head (by decide)
      · exact absurd rfl hop0ne

theorem m1_none_cmd2_sfx {c s : List Char} (hc : goodLabel c) (hs4 : parenFree (s.take 4)) :
    ∀ c0, isSfx c0 (cmd2 c) → c0 ≠ [] → matchP1At (c0 ++ s) = none := by
  intro c0 hsf hne
  have hq : ('"' : Char) ≠ '(' := by decide
  have hcp : (')' : Char) ≠ '(' := by decide
  have hshape : cmd2 c = DEL ++ ('(' :: '"' :: (c ++ ['"', ')'])) := by simp [cmd2]
  rw [hshape] at hsf
  rcases isSfx_append_cases hsf with hA | ⟨op0, hop0, hop0ne, rfl⟩
  · rcases isSfx_cases hA with rfl | hA2
    · exact m1_none_head (by decide) (by decide)
    rcases isSfx_cases hA2 with rfl | hA3
    · exact m1_none_head (by decide) (by decide)
    rcases isSfx_append_cases hA3 with hA4 | ⟨c1, hc1, hc1ne, rfl⟩
    · rcases isSfx_cases hA4 with rfl | hA5
      · exact m1_none_head (by decide) (by decide)
      rcases isSfx_cases hA5 with rfl | hA6
      · exact m1_none_head (by decide) (by decide)
      · exact absurd (isSfx_nil hA6) hne
    · refine m1_sfx_zone ?_ ?_ hs4
      · exact parenFree_append (parenFree_sfx hc1 (parenFree_label hc.2))
          (parenFree_cons hq (parenFree_cons hcp parenFree_nil))
      · have : c1.length ≥ 1 := List.length_pos.mpr hc1ne
        simp only [List.length_append, List.length_cons, List.length_nil]
        omega
  · rcases isSfx_DEL hop0 with rfl | rfl | rfl | rfl | rfl | rfl | rfl
    · have e : (DEL ++ ('(' :: '"' :: (c ++ ['"', ')']))) ++ s = cmd2 c ++ s := by simp [cmd2]
      rw [e]
      exact matchP1At_cmd2_none hc s
    · exact m1_none_head (by decide) (by decide)
    · exact m1_none_head (by decide) (by decide)
    · exact m1_none_head (by decide) (by decide)
    · exact m1_none_head (by decide) (by decide)
    · exact m1_none_head (by decide) (by decide)
    · exact absurd rfl hop0ne

/-! ### Composite no-match predicates -/

theorem noM1_nil : noM1 [] := fun u hu hune => absurd (isSfx_nil hu) hune

theorem noM2_nil : noM2 [] := fun u hu hune => absurd (isSfx_nil hu) hune

theorem noM1_cons {c : Char} {t : List Char} (h1 : c ≠ 'a') (h2 : c ≠ 'd') (h : noM1 t) :
    noM1 (c :: t) := by
  intro u hu hune
  rcases isSfx_cases hu with rfl | hu2
  · exact m1_none_head h1 h2
  · exact h u hu2 hune

theorem noM2_cons {c : Char} {t : List Char} (h2 : c ≠ 'd') (h : noM2 t) :
    noM2 (c :: t) := by
  intro u hu hune
  rcases isSfx_cases hu with rfl | hu2
  · exact m2_none_head h2
  · exact h u hu2 hune

theorem noM2_cmd1 {op a b w s : List Char} (hop : op = ADD ∨ op = DEL)
    (ha : goodLabel a) (hb : goodLabel b) (hw : allSpace w)
    (hs4 : parenFree (s.take 4)) (hs : noM2 s) : noM2 (cmd1 op a b w ++ s) := by
  intro u hu hune
  rcases isSfx_append_cases hu with h1 | ⟨c0, hc0, hc0ne, rfl⟩
  · exact hs u h1 hune
  · exact m2_none_cmd1_sfx hop ha hb hw hs4 c0 hc0 hc0ne

theorem noM1_cmd2 {c s : List Char} (hc : goodLabel c)
    (hs4 : parenFree (s.take 4)) (hs : noM1 s) : noM1 (cmd2 c ++ s) := by
  intro u hu hune
  rcases isSfx_append_cases hu with h1 | ⟨c0, hc0, hc0ne, rfl⟩
  · exact hs u h1 hune
  · exact m1_none_cmd2_sfx hc hs4 c0 hc0 hc0ne

theorem parenFree_take4 {s : List Char} (h : parenFree s) : parenFree (s.take 4) :=
  fun hmem => h (List.take_subset _ _ hmem)

/-! ### Scanning a command with inert surroundings -/

theorem scan1_step_len {t : List Char} {m : List Char × List Char × List Char}
    {rest : List Char} (hm : matchP1At t = some (m, rest)) :
    scan1 t.length t = m :: scan1 rest.length rest := by
  cases t with
  | nil => rw [matchP1At_nil] at hm; exact absurd hm (by simp)
  | cons c cs => exact scan1_step hm (by simp)

theorem scan2_step_len {t m rest : List Char} (hm : matchP2At t = some (m, rest)) :
    scan2 t.length t = m :: scan2 rest.length rest := by
  cases t with
  | nil => rw [matchP2At_nil] at hm; exact absurd hm (by simp)
  | cons c cs => exact scan2_step hm (by simp)

theorem cmd1_head (op a b w tail : List Char) (hop : op = ADD ∨ op = DEL) :
    (∃ v, cmd1 op a b w ++ tail = ADD ++ '(' :: '"' :: v) ∨
      (∃ v, cmd1 op a b w ++ tail = DEL ++ '(' :: '"' :: v) := by
  rcases hop with rfl | rfl
  · exact Or.inl ⟨(a ++ '"' :: ',' :: (w ++ '"' :: (b ++ ['"', ')']))) ++ tail, by simp [cmd1]⟩
  · exact Or.inr ⟨(a ++ '"' :: ',' :: (w ++ '"' :: (b ++ ['"', ')']))) ++ tail, by simp [cmd1]⟩

theorem cmd2_head (c tail : List Char) :
    (∃ v, cmd2 c ++ tail = ADD ++ '(' :: '"' :: v) ∨
      (∃ v, cmd2 c ++ tail = DEL ++ '(' :: '"' :: v) :=
  Or.inr ⟨(c ++ ['"', ')']) ++ tail, by simp [cmd2]⟩

theorem scan1_one_cmd1 {op a b w p s : List Char} (hop : op = ADD ∨ op = DEL)
    (ha : goodLabel a) (hb : goodLabel b) (hw : allSpace w)
    (hp : parenFree p) (hs : parenFree s) {f : Nat}
    (hf : (p ++ (cmd1 op a b w ++ s)).length ≤ f) :
    scan1 f (p ++ (cmd1 op a b w ++ s)) = [(op, a, b)] := by
  have hskip : scan1 f (p ++ (cmd1 op a b w ++ s)) =
      scan1 (cmd1 op a b w ++ s).length (cmd1 op a b w ++ s) := by
    refine scan1_skip hf ?_
    intro p0 hp0 hp0ne
    exact m1_none_pfxCmd hp0ne (parenFree_sfx hp0 hp) (cmd1_head op a b w s hop)
  rw [hskip, scan1_step_len (matchP1At_cmd1 hop ha hb hw s)]
  rw [scan1_nil_of_noM1 (noM1_of_parenFree hs)]

theorem scan2_zero_cmd1 {op a b w p s : List Char} (hop : op = ADD ∨ op = DEL)
    (ha : goodLabel a) (hb : goodLabel b) (hw : allSpace w)
    (hp : parenFree p) (hs : parenFree s) (f : Nat) :
    scan2 f (p ++ (cmd1 op a b w ++ s)) = [] := by
  refine scan2_nil_of_noM2 ?_ f
  intro u hu hune
  rcases isSfx_append_cases hu with h1 | ⟨p0, hp0, hp0ne, rfl⟩
  · exact noM2_cmd1 hop ha hb hw (parenFree_take4 hs) (noM2_of_parenFree hs) u h1 hune
  · exact m2_none_pfxCmd hp0ne (parenFree_sfx hp0 hp) (cmd1_head op a b w s hop)

theorem take4_nl_cmd1 (a b w tail : List Char) :
    parenFree (('\n' :: (cmd1 ADD a b w ++ tail)).take 4) := by
  have e : ('\n' :: (cmd1 ADD a b w ++ tail)).take 4 = ['\n', 'a', 'd', 'd'] := by
    simp [cmd1, ADD, List.take_append_eq_append_take]
  rw [e]
  simp [parenFree]

theorem take4_nl_cmd2 (c tail : List Char) :
    parenFree (('\n' :: (cmd2 c ++ tail)).take 4) := by
  have e : ('\n' :: (cmd2 c ++ tail)).take 4 = ['\n', 'd', 'e', 'l'] := by
    simp [cmd2, DEL, List.take_append_eq_append_take]
  rw [e]
  simp [parenFree]

theorem scan1_del_then_add {a b c : List Char} (ha : goodLabel a) (hb : goodLabel b)
    (hc : goodLabel c) {f : Nat} (hf : (cmd2 c ++ '\n' :: cmd1 ADD a b []).length ≤ f) :
    scan1 f (cmd2 c ++ '\n' :: cmd1 ADD a b []) = [(ADD, a, b)] := by
  have e : cmd2 c ++ '\n' :: cmd1 ADD a b [] =
      (cmd2 c ++ ['\n']) ++ (cmd1 ADD a b [] ++ []) := by simp
  rw [e]
  have hside : ∀ p0, isSfx p0 (cmd2 c ++ ['\n']) → p0 ≠ [] →
      matchP1At (p0 ++ (cmd1 ADD a b [] ++ [])) = none := by
    intro p0 hp0 hp0ne
    rcases isSfx_append_cases hp0 with h1 | ⟨c0, hc0, hc0ne, rfl⟩
    · rcases isSfx_cases h1 with rfl | h2
      · exact m1_none_head (by decide) (by decide)
      · exact absurd (isSfx_nil h2) hp0ne
    · rw [List.append_assoc]
      exact m1_none_cmd2_sfx hc (take4_nl_cmd1 a b [] []) c0 hc0 hc0ne
  have hf2 : ((cmd2 c ++ ['\n']) ++ (cmd1 ADD a b [] ++ [])).length ≤ f := by
    rw [← e]; exact hf
  rw [scan1_skip hf2 hside]
  rw [scan1_step_len (matchP1At_cmd1 (Or.inl rfl) ha hb (by simp [allSpace]) [])]
  rfl

theorem scan2_del_then_add {a b c : List Char} (ha : goodLabel a) (hb : goodLabel b)
    (hc : goodLabel c) {f : Nat} (hf : (cmd2 c ++ '\n' :: cmd1 ADD a b []).length ≤ f) :
    scan2 f (cmd2 c ++ '\n' :: cmd1 ADD a b []) = [c] := by
  rw [scan2_fuel hf le_rfl]
  rw [scan2_step_len (matchP2At_cmd2 hc ('\n' :: cmd1 ADD a b []))]
  have hrest : noM2 ('\n' :: cmd1 ADD a b []) := by
    refine noM2_cons (by decide) ?_
    have h0 : noM2 (cmd1 ADD a b [] ++ []) :=
      noM2_cmd1 (Or.inl rfl) ha hb (by simp [allSpace]) (by simp [parenFree]) noM2_nil
    simpa using h0
  rw [scan2_nil_of_noM2 hrest]

theorem scan1_add_then_del {a b c : List Char} (ha : goodLabel a) (hb : goodLabel b)
    (hc : goodLabel c) {f : Nat} (hf : (cmd1 ADD a b [] ++ '\n' :: cmd2 c).length ≤ f) :
    scan1 f (cmd1 ADD a b [] ++ '\n' :: cmd2 c) = [(ADD, a, b)] := by
  rw [scan1_fuel hf le_rfl]
  rw [scan1_step_len (matchP1At_cmd1 (Or.inl rfl) ha hb (by simp [allSpace]) ('\n' :: cmd2 c))]
  have hrest : noM1 ('\n' :: cmd2 c) := by
    refine noM1_cons (by decide) (by decide) ?_
    have h0 : noM1 (cmd2 c ++ []) :=
      noM1_cmd2 hc (by simp [parenFree]) noM1_nil
    simpa using h0
  rw [scan1_nil_of_noM1 hrest]

theorem scan2_add_then_del {a b c : List Char} (ha : goodLabel a) (hb : goodLabel b)
    (hc : goodLabel c) {f : Nat} (hf : (cmd1 ADD a b [] ++ '\n' :: cmd2 c).length ≤ f) :
    scan2 f (cmd1 ADD a b [] ++ '\n' :: cmd2 c) = [c] := by
  have e : cmd1 ADD a b [] ++ '\n' :: cmd2 c =
      (cmd1 ADD a b [] ++ ['\n']) ++ (cmd2 c ++ []) := by simp
  rw [e]
  have hside : ∀ p0, isSfx p0 (cmd1 ADD a b [] ++ ['\n']) → p0 ≠ [] →
      matchP2At (p0 ++ (cmd2 c ++ [])) = none := by
    intro p0 hp0 hp0ne
    rcases isSfx_append_cases hp0 with h1 | ⟨c0, hc0, hc0ne, rfl⟩
    · rcases isSfx_cases h1 with rfl | h2
      · exact m2_none_head (by decide)
      · exact absurd (isSfx_nil h2) hp0ne
    · rw [List.append_assoc]
      exact m2_none_cmd1_sfx (Or.inl rfl) ha hb (by simp [allSpace])
        (take4_nl_cmd2 c []) c0 hc0 hc0ne
  have hf2 : ((cmd1 ADD a b [] ++ ['\n']) ++ (cmd2 c ++ [])).length ≤ f := by
    rw [← e]; exact hf
  rw [scan2_skip hf2 hside]
  have hm : matchP2At (cmd2 c ++ []) = some (c, []) := matchP2At_cmd2 hc []
  rw [scan2_step_len hm]
  rfl

/-! ### Scanning a serialized edge list -/

theorem serial_take3 (E : List (List Char × List Char)) :
    parenFree ((serialChars E).take 3) := by
  cases E with
  | nil => simp [serialChars, parenFree]
  | cons e es =>
    have h : (serialChars (e :: es)).take 3 = ['a', 'd', 'd'] := by
      simp [serialChars, serialOne, cmd1, ADD, List.take_append_eq_append_take]
    rw [h]
    simp [parenFree]

theorem scan1_serial : ∀ (E : List (List Char × List Char)),
    (∀ e ∈ E, goodLabel e.1 ∧ goodLabel e.2) → ∀ {f : Nat},
    (serialChars E).length ≤ f →
    scan1 f (serialChars E) = E.map (fun e => (ADD, e.1, e.2)) := by
  intro E
  induction E with
  | nil =>
    intro _ f _
    cases f <;> rfl
  | cons e es ih =>
    intro hE f hf
    obtain ⟨ha, hb⟩ := hE e (by simp)
    have hes : ∀ e2 ∈ es, goodLabel e2.1 ∧ goodLabel e2.2 :=
      fun e2 he2 => hE e2 (by simp [he2])
    have e1 : serialChars (e :: es) = cmd1 ADD e.1 e.2 [] ++ ('\n' :: serialChars es) := by
      simp [serialChars, serialOne]
    rw [e1] at hf ⊢
    rw [scan1_fuel hf le_rfl]
    rw [scan1_step_len (matchP1At_cmd1 (Or.inl rfl) ha hb (by simp [allSpace])
      ('\n' :: serialChars es))]
    have hstep : scan1 ('\n' :: serialChars es).length ('\n' :: serialChars es) =
        scan1 (serialChars es).length (serialChars es) := by
      have hside : ∀ p0, isSfx p0 ['\n'] → p0 ≠ [] →
          matchP1At (p0 ++ serialChars es) = none := by
        intro p0 hp0 hp0ne
        rcases isSfx_cases hp0 with rfl | h2
        · exact m1_none_head (by decide) (by decide)
        · exact absurd (isSfx_nil h2) hp0ne
      have hsk : scan1 (['\n'] ++ serialChars es).length (['\n'] ++ serialChars es) =
          scan1 (serialChars es).length (serialChars es) := scan1_skip le_rfl hside
      simpa using hsk
    rw [hstep, ih hes le_rfl]
    simp

theorem noM2_serial : ∀ (E : List (List Char × List Char)),
    (∀ e ∈ E, goodLabel e.1 ∧ goodLabel e.2) → noM2 (serialChars E) := by
  intro E
  induction E with
  | nil =>
    intro _
    exact noM2_nil
  | cons e es ih =>
    intro hE
    obtain ⟨ha, hb⟩ := hE e (by simp)
    have hes : ∀ e2 ∈ es, goodLabel e2.1 ∧ goodLabel e2.2 :=
      fun e2 he2 => hE e2 (by simp [he2])
    have e1 : serialChars (e :: es) = cmd1 ADD e.1 e.2 [] ++ ('\n' :: serialChars es) := by
      simp [serialChars, serialOne]
    rw [e1]
    refine noM2_cmd1 (Or.inl rfl) ha hb (by simp [allSpace]) ?_ ?_
    · have h4 : ('\n' :: serialChars es).take 4 = '\n' :: (serialChars es).take 3 := by
        simp [List.take_succ_cons]
      rw [h4]
      exact parenFree_cons (by decide) (serial_take3 es)
    · exact noM2_cons (by decide) (ih hes)

/-! ### Resolver walk facts -/

theorem fz_mem_iff {e : String × String} {x : String} : x ∈ fz e ↔ x = e.1 ∨ x = e.2 := by
  simp [fz]

theorem walkEdges_nil (rem : List (Finset String)) (rn : List String)
    (added : List (String × String)) : walkEdges rem rn added [] = added := rfl

theorem walkEdges_cons (rem : List (Finset String)) (rn : List String)
    (added : List (String × String)) (e : String × String) (es : List (String × String)) :
    walkEdges rem rn added (e :: es) =
      if fz e ∈ added.map fz ∨ e.1 ∈ rn ∨ e.2 ∈ rn ∨ fz e ∈ rem then
        walkEdges rem rn added es
      else walkEdges rem rn (added ++ [e]) es := rfl

theorem walkEdges_mem {rem : List (Finset String)} {rn : List String} :
    ∀ (cands added : List (String × String)) (s : Finset String),
    (s ∈ (walkEdges rem rn added cands).map fz ↔
      s ∈ added.map fz ∨ (s ∈ cands.map fz ∧ s ∉ rem ∧ ∀ x ∈ s, x ∉ rn)) := by
  intro cands
  induction cands with
  | nil =>
    intro added s
    simp [walkEdges_nil]
  | cons e es ih =>
    intro added s
    rw [walkEdges_cons]
    by_cases hC : fz e ∈ added.map fz ∨ e.1 ∈ rn ∨ e.2 ∈ rn ∨ fz e ∈ rem
    · rw [if_pos hC, ih]
      constructor
      · rintro (h | ⟨hes, hfilt⟩)
        · exact Or.inl h
        · exact Or.inr ⟨by rw [List.map_cons]; exact List.mem_cons_of_mem _ hes, hfilt⟩
      · rintro (h | ⟨hmem, hnr, hnn⟩)
        · exact Or.inl h
        · rw [List.map_cons] at hmem
          rcases List.mem_cons.mp hmem with heq | hes
          · rcases hC with hC | hC | hC | hC
            · exact Or.inl (heq ▸ hC)
            · have hm1 : e.1 ∈ s := by rw [heq]; exact fz_mem_iff.mpr (Or.inl rfl)
              exact absurd hC (hnn e.1 hm1)
            · have hm2 : e.2 ∈ s := by rw [heq]; exact fz_mem_iff.mpr (Or.inr rfl)
              exact absurd hC (hnn e.2 hm2)
            · exact absurd (heq ▸ hC) hnr
          · exact Or.inr ⟨hes, hnr, hnn⟩
    · rw [if_neg hC]
      push_neg at hC
      obtain ⟨h1, h2, h3, h4⟩ := hC
      rw [ih]
      constructor
      · rintro (h | ⟨hes, hfilt⟩)
        · rw [List.map_append] at h
          rcases List.mem_append.mp h with h | h
          · exact Or.inl h
          · have heq : s = fz e := by simpa using h
            refine Or.inr ⟨by rw [heq, List.map_cons]; exact List.mem_cons_self _ _,
              heq ▸ h4, ?_⟩
            intro x hx
            rcases fz_mem_iff.mp (heq ▸ hx) with rfl | rfl
            · exact h2
            · exact h3
        · exact Or.inr ⟨by rw [List.map_cons]; exact List.mem_cons_of_mem _ hes, hfilt⟩
      · rintro (h | ⟨hmem, hnr, hnn⟩)
        · exact Or.inl (by rw [List.map_append]; exact List.mem_append_left _ h)
        · rw [List.map_cons] at hmem
          rcases List.mem_cons.mp hmem with heq | hes
          · refine Or.inl ?_
            rw [List.map_append]
            exact List.mem_append_right _ (by simp [heq])
          · exact Or.inr ⟨hes, hnr, hnn⟩

theorem walkEdges_nodup {rem : List (Finset String)} {rn : List String} :
    ∀ (cands added : List (String × String)), (added.map fz).Nodup →
    ((walkEdges rem rn added cands).map fz).Nodup := by
  intro cands
  induction cands with
  | nil =>
    intro added h
    simpa [walkEdges_nil] using h
  | cons e es ih =>
    intro added h
    rw [walkEdges_cons]
    by_cases hC : fz e ∈ added.map fz ∨ e.1 ∈ rn ∨ e.2 ∈ rn ∨ fz e ∈ rem
    · rw [if_pos hC]
      exact ih added h
    · rw [if_neg hC]
      push_neg at hC
      refine ih (added ++ [e]) ?_
      rw [List.map_append]
      refine List.Nodup.append h (by simp) ?_
      intro x hx hx2
      have hxe : x = fz e := by simpa using hx2
      exact hC.1 (hxe ▸ hx)

theorem walkEdges_sub {rem : List (Finset String)} {rn : List String} :
    ∀ (cands added : List (String × String)) (e : String × String),
    e ∈ walkEdges rem rn added cands → e ∈ added ∨ e ∈ cands := by
  intro cands
  induction cands with
  | nil =>
    intro added e h
    exact Or.inl (by simpa [walkEdges_nil] using h)
  | cons c0 es ih =>
    intro added e h
    rw [walkEdges_cons] at h
    by_cases hC : fz c0 ∈ added.map fz ∨ c0.1 ∈ rn ∨ c0.2 ∈ rn ∨ fz c0 ∈ rem
    · rw [if_pos hC] at h
      rcases ih added e h with h | h
      · exact Or.inl h
      · exact Or.inr (by simp [h])
    · rw [if_neg hC] at h
      rcases ih (added ++ [c0]) e h with h | h
      · rcases List.mem_append.mp h with h | h
        · exact Or.inl h
        · exact Or.inr (by simp [List.mem_singleton.mp h])
      · exact Or.inr (by simp [h])

theorem walkEdges_all_accept :
    ∀ (cands added : List (String × String)), ((added ++ cands).map fz).Nodup →
    walkEdges [] [] added cands = added ++ cands := by
  intro cands
  induction cands with
  | nil =>
    intro added _
    simp [walkEdges_nil]
  | cons e es ih =>
    intro added h
    rw [walkEdges_cons]
    have hne : fz e ∉ added.map fz := by
      intro hmem
      rw [List.map_append] at h
      have hd := (List.nodup_append.mp h).2.2
      exact hd hmem (by simp)
    rw [if_neg (by simp [hne])]
    have h2 : (((added ++ [e]) ++ es).map fz).Nodup := by
      simpa [List.append_assoc] using h
    rw [ih (added ++ [e]) h2]
    simp

/-! ### Derived node list -/

theorem nodesOf_mem (edges : List (String × String)) (x : String) :
    x ∈ nodesOf edges ↔ ∃ e ∈ edges, x = e.1 ∨ x = e.2 := by
  simp only [nodesOf, List.mem_dedup, List.mem_flatten, List.mem_map]
  constructor
  · rintro ⟨l, ⟨e, he, rfl⟩, hx⟩
    rcases List.mem_cons.mp hx with rfl | hx2
    · exact ⟨e, he, Or.inl rfl⟩
    · exact ⟨e, he, Or.inr (by simpa using hx2)⟩
  · rintro ⟨e, he, rfl | rfl⟩
    · exact ⟨[e.1, e.2], ⟨e, he, rfl⟩, by simp⟩
    · exact ⟨[e.1, e.2], ⟨e, he, rfl⟩, by simp⟩

/-! ### Classification facts -/

theorem classify_ne : ∀ (ms : List PyMatch) (acc : Batch),
    (∀ p ∈ acc.new_edges, p.1 ≠ p.2) →
    ∀ p ∈ (List.foldl classifyStep acc ms).new_edges, p.1 ≠ p.2 := by
  intro ms
  induction ms with
  | nil =>
    intro acc h
    simpa using h
  | cons m rest ih =>
    intro acc h
    have hstep : ∀ p ∈ (classifyStep acc m).new_edges, p.1 ≠ p.2 := by
      cases m with
      | m3 op a b =>
        by_cases hcond : op = "add" ∨ op = "delete"
        · by_cases hab : a = b
          · simpa [classifyStep, hcond, hab] using h
          · by_cases hadd : op = "add"
            · intro p hp
              simp only [classifyStep, if_pos hcond, if_neg hab, if_pos hadd] at hp
              rcases List.mem_append.mp hp with hp | hp
              · exact h p hp
              · have hpe : p = (a, b) := by simpa using hp
                rw [hpe]
                exact hab
            · intro p hp
              simp only [classifyStep, if_pos hcond, if_neg hab, if_neg hadd] at hp
              exact h p hp
        · intro p hp
          simp only [classifyStep, if_neg hcond] at hp
          exact h p hp
      | m2 a =>
        intro p hp
        simp only [classifyStep] at hp
        exact h p hp
    exact ih (classifyStep acc m) hstep

theorem classify_adds : ∀ (E : List (String × String)) (acc : Batch),
    (∀ e ∈ E, e.1 ≠ e.2) →
    List.foldl classifyStep acc (E.map (fun e => PyMatch.m3 "add" e.1 e.2)) =
      ⟨acc.new_edges ++ E, acc.remove_edges, acc.remove_nodes⟩ := by
  intro E
  induction E with
  | nil =>
    intro acc _
    cases acc
    simp
  | cons e es ih =>
    intro acc h
    simp only [List.map_cons, List.foldl_cons]
    have hne := h e (by simp)
    have hstep : classifyStep acc (PyMatch.m3 "add" e.1 e.2) =
        ⟨acc.new_edges ++ [e], acc.remove_edges, acc.remove_nodes⟩ := by
      simp [classifyStep, hne]
    rw [hstep, ih _ (fun x hx => h x (by simp [hx]))]
    simp

/-! ### parse_and_include_edges projections -/

theorem parse_edges_eq (st : AppState) (out : String) (rep : Bool) :
    (parse_and_include_edges st out rep).edges =
      walkEdges (classify (pyMatchesStr out)).remove_edges
        (classify (pyMatchesStr out)).remove_nodes []
        (if rep then (classify (pyMatchesStr out)).new_edges
         else st.edges ++ (classify (pyMatchesStr out)).new_edges) := rfl

theorem parse_nodes_eq (st : AppState) (out : String) (rep : Bool) :
    (parse_and_include_edges st out rep).nodes =
      nodesOf (parse_and_include_edges st out rep).edges := rfl

theorem strmk_data (s : String) : (⟨s.data⟩ : String) = s := by
  rcases s with ⟨d⟩
  rfl

/-! ### Claim theorems -/

/-- C1: atomicity of an edit round.  For every session state, query, node
and free text, if the generation collaborator returns an error for the
trial transcript of the initial flow or of either extend-flow variant,
then the returned state's committed transcript, edge list and node list
are all identical to their values before the call, and the error is
propagated; the trial transcript is discarded. -/
theorem c1_edit_round_atomicity {ε : Type} (gen : Gen ε) (st : AppState)
    (q n t : String) (e : ε) :
    (gen (initialTrial q) = Except.error e →
      (ask_for_initial_graph gen st q).1.conversation = st.conversation ∧
      (ask_for_initial_graph gen st q).1.edges = st.edges ∧
      (ask_for_initial_graph gen st q).1.nodes = st.nodes ∧
      (ask_for_initial_graph gen st q).2 = some e) ∧
    (gen (extendTrialNode st n) = Except.error e →
      (ask_for_extended_graph gen st (some n) none).1.conversation = st.conversation ∧
      (ask_for_extended_graph gen st (some n) none).1.edges = st.edges ∧
      (ask_for_extended_graph gen st (some n) none).1.nodes = st.nodes ∧
      (ask_for_extended_graph gen st (some n) none).2 = some e) ∧
    (gen (extendTrialText st t) = Except.error e →
      (ask_for_extended_graph gen st none (some t)).1.conversation = st.conversation ∧
      (ask_for_extended_graph gen st none (some t)).1.edges = st.edges ∧
      (ask_for_extended_graph gen st none (some t)).1.nodes = st.nodes ∧
      (ask_for_extended_graph gen st none (some t)).2 = some e) := by
  refine ⟨?_, ?_, ?_⟩ <;> intro h <;>
    simp [ask_for_initial_graph, ask_for_extended_graph, commitRound, h]

theorem c1_witness :
    genErrNat (initialTrial "machine learning") = Except.error 0 ∧
    ((ask_for_initial_graph genErrNat st0 "machine learning").1.conversation =
        st0.conversation ∧
      (ask_for_initial_graph genErrNat st0 "machine learning").1.edges = st0.edges ∧
      (ask_for_initial_graph genErrNat st0 "machine learning").1.nodes = st0.nodes ∧
      (ask_for_initial_graph genErrNat st0 "machine learning").2 = some 0) :=
  ⟨rfl, (c1_edit_round_atomicity genErrNat st0 "machine learning" "n" "t" 0).1 rfl⟩

/-- C10: in the extend flow with a selected node, the ephemeral
`st.session_state.last_expanded` marker is assigned the selected label
before the generation call, so on a failed call the returned state is
exactly the original with only `last_expanded` changed — transcript, edges
and nodes are untouched. -/
theorem c10_last_expanded_frame {ε : Type} (gen : Gen ε) (st : AppState) (n : String)
    (e : ε) (h : gen (extendTrialNode st n) = Except.error e) :
    ask_for_extended_graph gen st (some n) none =
      ({ st with last_expanded := some n }, some e) := by
  simp [ask_for_extended_graph, commitRound, h]

theorem c10_witness :
    genErrNat (extendTrialNode st0 "X") = Except.error 0 ∧
    ask_for_extended_graph genErrNat st0 (some "X") none =
      ({ st0 with last_expanded := some "X" }, some 0) :=
  ⟨rfl, c10_last_expanded_frame genErrNat st0 "X" 0 rfl⟩

/-- C7: derived-node invariant.  After `parse_and_include_edges` in either
mode and after `_delete_node`, a label is in the node list exactly when it
is an endpoint of some edge of the current edge list. -/
theorem c7_derived_node_invariant (st : AppState) (out : String) (rep : Bool)
    (n x : String) :
    (x ∈ (parse_and_include_edges st out rep).nodes ↔
      ∃ e ∈ (parse_and_include_edges st out rep).edges, x = e.1 ∨ x = e.2) ∧
    (x ∈ (_delete_node st n).nodes ↔
      ∃ e ∈ (_delete_node st n).edges, x = e.1 ∨ x = e.2) := by
  constructor
  · rw [parse_nodes_eq]
    exact nodesOf_mem _ x
  · exact nodesOf_mem _ x

/-- C2: extend semantics.  Resolving a text with `replace=false` gives an
edge list whose unordered-pair identities are exactly those of the prior
edges followed by the batch's AddEdge pairs, minus the identities in the
batch's DeleteEdge set and minus identities touching a DeleteNode label;
the result is identity-deduplicated (first occurrence of the concatenation
prior-then-new wins). -/
theorem c2_extend_semantics (st : AppState) (out : String) (s : Finset String) :
    (s ∈ ((parse_and_include_edges st out false).edges).map fz ↔
      (s ∈ (st.edges ++ (classify (pyMatchesStr out)).new_edges).map fz ∧
        s ∉ (classify (pyMatchesStr out)).remove_edges ∧
        ∀ x ∈ s, x ∉ (classify (pyMatchesStr out)).remove_nodes)) ∧
    (((parse_and_include_edges st out false).edges).map fz).Nodup := by
  rw [parse_edges_eq]
  constructor
  · rw [if_neg (by simp), walkEdges_mem]
    simp
  · exact walkEdges_nodup _ [] (by simp)

/-- C3: replace semantics.  With `replace=true` the resolved edge list
does not depend on the prior edges at all; with zero parsed operations,
`replace=true` empties the graph while `replace=false` leaves edge
membership unchanged. -/
theorem c3_replace_semantics (st st2 : AppState) (out : String) (s : Finset String) :
    ((parse_and_include_edges st out true).edges =
        (parse_and_include_edges st2 out true).edges ∧
      (parse_and_include_edges st out true).nodes =
        (parse_and_include_edges st2 out true).nodes) ∧
    (pyMatchesStr out = [] →
      (parse_and_include_edges st out true).edges = [] ∧
      (s ∈ ((parse_and_include_edges st out false).edges).map fz ↔
        s ∈ st.edges.map fz)) := by
  have hedges : (parse_and_include_edges st out true).edges =
      (parse_and_include_edges st2 out true).edges := by
    rw [parse_edges_eq, parse_edges_eq]
    simp
  constructor
  · exact ⟨hedges, by rw [parse_nodes_eq, parse_nodes_eq, hedges]⟩
  · intro h0
    constructor
    · rw [parse_edges_eq, h0]
      rfl
    · rw [parse_edges_eq, h0, if_neg (by simp)]
      show s ∈ (walkEdges [] [] [] (st.edges ++ [])).map fz ↔ s ∈ st.edges.map fz
      rw [walkEdges_mem]
      simp

theorem c3_witness :
    pyMatchesStr "hello" = [] ∧
    ((parse_and_include_edges stAB "hello" true).edges = [] ∧
      (fz ("a", "b") ∈ ((parse_and_include_edges stAB "hello" false).edges).map fz ↔
        fz ("a", "b") ∈ stAB.edges.map fz)) :=
  ⟨by decide, (c3_replace_semantics stAB st0 "hello" (fz ("a", "b"))).2 (by decide)⟩

/-- C9: self-loop exclusion.  A self-referencing two-argument edit is
dropped before classification, so the batch's AddEdge list never contains
an equal-endpoint pair; consequently no resolved edge has two equal
endpoints with `replace=true`, and with either mode when the prior edges
have none (as holds for every state the app can reach from the empty
graph). -/
theorem c9_self_loop_exclusion (st : AppState) (out : String) (rep : Bool)
    (e : String × String) :
    (∀ p ∈ (classify (pyMatchesStr out)).new_edges, p.1 ≠ p.2) ∧
    (e ∈ (parse_and_include_edges st out true).edges → e.1 ≠ e.2) ∧
    ((∀ p ∈ st.edges, p.1 ≠ p.2) →
      e ∈ (parse_and_include_edges st out rep).edges → e.1 ≠ e.2) := by
  have hnew : ∀ p ∈ (classify (pyMatchesStr out)).new_edges, p.1 ≠ p.2 :=
    classify_ne (pyMatchesStr out) ⟨[], [], []⟩ (by simp)
  refine ⟨hnew, ?_, ?_⟩
  · intro hmem
    rw [parse_edges_eq, if_pos rfl] at hmem
    rcases walkEdges_sub _ [] e hmem with h | h
    · exact absurd h (by simp)
    · exact hnew e h
  · intro hst hmem
    rw [parse_edges_eq] at hmem
    rcases walkEdges_sub _ [] e hmem with h | h
    · exact absurd h (by simp)
    · cases rep with
      | true =>
        rw [if_pos rfl] at h
        exact hnew e h
      | false =>
        rw [if_neg (by simp)] at h
        rcases List.mem_append.mp h with h | h
        · exact hst e h
        · exact hnew e h

theorem c9_witness :
    (∀ p ∈ stAB.edges, p.1 ≠ p.2) ∧
    (("c", "c") ∈ (parse_and_include_edges stAB "add(\"c\",\"c\")" false).edges →
      ("c", "c").1 ≠ ("c", "c").2) :=
  ⟨by decide,
    (c9_self_loop_exclusion stAB "add(\"c\",\"c\")" false ("c", "c")).2.2 (by decide)⟩

/-- C4: parser ordering quirk.  The operation list is the pattern1 matches
followed by the pattern2 matches as two concatenated groups (first
conjunct, the source's `findall(p1) + findall(p2)`), never interleaved by
textual position: for any valid labels, a one-argument delete written
BEFORE a two-argument add still comes after it in the parsed list, and the
parsed list is the same for both textual orders. -/
theorem c4_group_ordering (out : String) (a b c : List Char)
    (ha : goodLabel a) (hb : goodLabel b) (hc : goodLabel c) :
    (pyMatchesStr out =
      (findall1 out).map (fun m => PyMatch.m3 ⟨m.1⟩ ⟨m.2.1⟩ ⟨m.2.2⟩) ++
        (findall2 out).map (fun m => PyMatch.m2 ⟨m⟩)) ∧
    (pyMatchesL (cmd2 c ++ '\n' :: cmd1 ADD a b []) =
      [PyMatch.m3 "add" ⟨a⟩ ⟨b⟩, PyMatch.m2 ⟨c⟩]) ∧
    (pyMatchesL (cmd1 ADD a b [] ++ '\n' :: cmd2 c) =
      [PyMatch.m3 "add" ⟨a⟩ ⟨b⟩, PyMatch.m2 ⟨c⟩]) := by
  refine ⟨rfl, ?_, ?_⟩
  · unfold pyMatchesL
    rw [scan1_del_then_add ha hb hc le_rfl, scan2_del_then_add ha hb hc le_rfl]
    rfl
  · unfold pyMatchesL
    rw [scan1_add_then_del ha hb hc le_rfl, scan2_add_then_del ha hb hc le_rfl]
    rfl

theorem c4_witness :
    (goodLabel ['A'] ∧ goodLabel ['B'] ∧ goodLabel ['C']) ∧
    pyMatchesL (cmd2 ['C'] ++ '\n' :: cmd1 ADD ['A'] ['B'] []) =
      [PyMatch.m3 "add" "A" "B", PyMatch.m2 "C"] :=
  ⟨⟨⟨by decide, by decide⟩, ⟨by decide, by decide⟩, ⟨by decide, by decide⟩⟩,
    (c4_group_ordering "x" ['A'] ['B'] ['C'] ⟨by decide, by decide⟩
      ⟨by decide, by decide⟩ ⟨by decide, by decide⟩).2.1⟩

/-- C5 counterexample: the claim allows arbitrary whitespace AROUND the
comma, but pattern1 requires the comma to follow the first closing quote
immediately; a single space before the comma makes the parser extract
nothing, while the same command with the space after the comma parses. -/
theorem c5_counterexample :
    pyMatchesStr "add(\"A\" ,\"B\")" = [] ∧
    pyMatchesStr "add(\"A\", \"B\")" = [PyMatch.m3 "add" "A" "B"] := by
  constructor
  · decide
  · decide

/-- C5 (amended): for both two-argument commands, nonempty labels over
characters excluding parentheses and the double quote, arbitrary
whitespace AFTER the comma only (none is recognized before it), and any
surrounding text free of the `(` character, the parser extracts exactly
one operation with the correct kind and operand pair. -/
theorem c5_two_arg_recognition (isAdd : Bool) (a b w p s : List Char)
    (ha : goodLabel a) (hb : goodLabel b) (hw : allSpace w)
    (hp : parenFree p) (hs : parenFree s) :
    pyMatchesL (p ++ (cmd1 (if isAdd then ADD else DEL) a b w ++ s)) =
      [PyMatch.m3 (if isAdd then "add" else "delete") ⟨a⟩ ⟨b⟩] := by
  cases isAdd with
  | false =>
    show pyMatchesL (p ++ (cmd1 DEL a b w ++ s)) = [PyMatch.m3 "delete" ⟨a⟩ ⟨b⟩]
    unfold pyMatchesL
    rw [scan1_one_cmd1 (Or.inr rfl) ha hb hw hp hs le_rfl,
      scan2_zero_cmd1 (Or.inr rfl) ha hb hw hp hs]
    rfl
  | true =>
    show pyMatchesL (p ++ (cmd1 ADD a b w ++ s)) = [PyMatch.m3 "add" ⟨a⟩ ⟨b⟩]
    unfold pyMatchesL
    rw [scan1_one_cmd1 (Or.inl rfl) ha hb hw hp hs le_rfl,
      scan2_zero_cmd1 (Or.inl rfl) ha hb hw hp hs]
    rfl

theorem c5_witness :
    (goodLabel ['A'] ∧ goodLabel ['B'] ∧ allSpace [' '] ∧ parenFree ['x'] ∧
      parenFree ['y']) ∧
    pyMatchesL (['x'] ++ (cmd1 ADD ['A'] ['B'] [' '] ++ ['y'])) =
      [PyMatch.m3 "add" "A" "B"] :=
  ⟨⟨⟨by decide, by decide⟩, ⟨by decide, by decide⟩, by simp [allSpace, pySpace],
      by simp [parenFree], by simp [parenFree]⟩,
    c5_two_arg_recognition true ['A'] ['B'] [' '] ['x'] ['y'] ⟨by decide, by decide⟩
      ⟨by decide, by decide⟩ (by simp [allSpace, pySpace]) (by simp [parenFree])
      (by simp [parenFree])⟩

/-- C6 counterexample: `_delete_node` builds its transcript record through
the `Message` constructor, which applies `textwrap.dedent(...).strip()`;
for the label `"a\n\t\nb"` the whitespace-only middle line is blanked, so
the recorded content is `delete("a\n\nb")` and NOT the verbatim
`delete("a\n\t\nb")` the claim states. -/
theorem c6_counterexample :
    (_delete_node st0 "a\n\t\nb").conversation =
      [⟨"delete(\"a\n\nb\")", "user"⟩] ∧
    ("delete(\"a\n\nb\")" : String) ≠ "delete(\"a\n\t\nb\")" := by
  constructor
  · decide
  · decide

/-- C6 (amended): `_delete_node` removes exactly the edges having the
label as an endpoint, re-derives the node list from the remaining edges,
and appends one user-role message whose content is the dedent-and-strip
normalization of `delete("X")` — equal to that very string whenever
normalization leaves it unchanged (all labels without whitespace-only
lines); the call is total, and a repeat call is a no-op on the edges while
still appending a transcript record. -/
theorem c6_delete_node_contract (st : AppState) (X : String) (e : String × String)
    (x : String)
    (hX : pyNormalize ("delete(\"" ++ X ++ "\")") = "delete(\"" ++ X ++ "\")") :
    (e ∈ (_delete_node st X).edges ↔ e ∈ st.edges ∧ X ≠ e.1 ∧ X ≠ e.2) ∧
    (x ∈ (_delete_node st X).nodes ↔
      ∃ e2 ∈ (_delete_node st X).edges, x = e2.1 ∨ x = e2.2) ∧
    ((_delete_node st X).conversation =
      st.conversation ++ [⟨"delete(\"" ++ X ++ "\")", "user"⟩]) ∧
    ((_delete_node (_delete_node st X) X).edges = (_delete_node st X).edges) := by
  refine ⟨?_, nodesOf_mem _ x, ?_, ?_⟩
  · show e ∈ st.edges.filter (fun e2 => X ∉ fz e2) ↔ _
    rw [List.mem_filter]
    constructor
    · rintro ⟨hmem, hdec⟩
      have hni : X ∉ fz e := of_decide_eq_true hdec
      rw [fz_mem_iff] at hni
      push_neg at hni
      exact ⟨hmem, hni.1, hni.2⟩
    · rintro ⟨hmem, h1, h2⟩
      refine ⟨hmem, decide_eq_true ?_⟩
      rw [fz_mem_iff]
      push_neg
      exact ⟨h1, h2⟩
  · show st.conversation ++ [mkMessage ("delete(\"" ++ X ++ "\")") "user"] = _
    rw [mkMessage, hX]
  · show ((st.edges.filter (fun e2 => X ∉ fz e2)).filter (fun e2 => X ∉ fz e2)) =
      st.edges.filter (fun e2 => X ∉ fz e2)
    rw [List.filter_filter]
    simp

theorem c6_witness :
    pyNormalize ("delete(\"" ++ "ab" ++ "\")") = "delete(\"" ++ "ab" ++ "\")" ∧
    ((("a", "b") ∈ (_delete_node stAB "ab").edges ↔
        ("a", "b") ∈ stAB.edges ∧ "ab" ≠ "a" ∧ "ab" ≠ "b") ∧
      ("a" ∈ (_delete_node stAB "ab").nodes ↔
        ∃ e2 ∈ (_delete_node stAB "ab").edges, "a" = e2.1 ∨ "a" = e2.2) ∧
      ((_delete_node stAB "ab").conversation =
        stAB.conversation ++ [⟨"delete(\"" ++ "ab" ++ "\")", "user"⟩]) ∧
      ((_delete_node (_delete_node stAB "ab") "ab").edges =
        (_delete_node stAB "ab").edges)) :=
  ⟨by decide, c6_delete_node_contract stAB "ab" ("a", "b") "a" (by decide)⟩

/-- C8: round trip.  For a graph whose edges have valid labels, no
self-loops and pairwise distinct unordered-pair identities, serializing
every edge as a line `add("a","b")` and re-parsing the concatenation with
`replace=true` reproduces exactly the same unordered-pair membership. -/
theorem c8_round_trip (st : AppState) (E : List (String × String)) (s : Finset String)
    (hlab : ∀ e ∈ E, goodLabel e.1.data ∧ goodLabel e.2.data)
    (hloop : ∀ e ∈ E, e.1 ≠ e.2)
    (hnd : (E.map fz).Nodup) :
    s ∈ ((parse_and_include_edges st (serializeEdges E) true).edges).map fz ↔
      s ∈ E.map fz := by
  have hlab2 : ∀ e2 ∈ E.map (fun e => (e.1.data, e.2.data)), goodLabel e2.1 ∧ goodLabel e2.2 := by
    rintro e2 he2
    obtain ⟨e, he, rfl⟩ := List.mem_map.mp he2
    exact hlab e he
  have hm : pyMatchesStr (serializeEdges E) = E.map (fun e => PyMatch.m3 "add" e.1 e.2) := by
    show pyMatchesL (serialChars (E.map (fun e => (e.1.data, e.2.data)))) = _
    unfold pyMatchesL
    rw [scan1_serial _ hlab2 le_rfl,
      scan2_nil_of_noM2 (noM2_serial _ hlab2) _]
    rw [List.map_map, List.map_map, List.map_nil, List.append_nil]
    refine List.map_congr_left ?_
    intro e he
    show PyMatch.m3 ⟨ADD⟩ ⟨e.1.data⟩ ⟨e.2.data⟩ = PyMatch.m3 "add" e.1 e.2
    rw [strmk_data, strmk_data]
    rfl
  have hcl : classify (pyMatchesStr (serializeEdges E)) = ⟨E, [], []⟩ := by
    rw [hm]
    show List.foldl classifyStep ⟨[], [], []⟩ _ = _
    rw [classify_adds E ⟨[], [], []⟩ hloop]
    simp
  rw [parse_edges_eq, hcl, if_pos rfl]
  show s ∈ (walkEdges [] [] [] E).map fz ↔ s ∈ E.map fz
  rw [walkEdges_all_accept E [] (by simpa using hnd)]
  simp

theorem c8_witness :
    ((∀ e ∈ [(("a" : String), ("b" : String))], goodLabel e.1.data ∧ goodLabel e.2.data) ∧
      (∀ e ∈ [(("a" : String), ("b" : String))], e.1 ≠ e.2) ∧
      (([(("a" : String), ("b" : String))].map fz).Nodup)) ∧
    (fz ("a", "b") ∈
        ((parse_and_include_edges st0 (serializeEdges [("a", "b")]) true).edges).map fz ↔
      fz ("a", "b") ∈ [(("a" : String), ("b" : String))].map fz) :=
  ⟨⟨by simp only [goodLabel]; decide, by decide, by simp⟩,
    c8_round_trip st0 [("a", "b")] (fz ("a", "b")) (by simp only [goodLabel]; decide)
      (by decide) (by simp)⟩
